import Mathlib

/-
  Verification of the canonical JSON serializer (gibson042/canonicaljson-go).

  The serializer proper (encode.go) is not part of the provided sources; its
  behaviour is pinned down by the repository's own test files
  (src/unnamed/part_002 = encode_test.go, src/scanner_test.go,
  src/stream_test.go), by the package documentation embedded in the sources,
  and by stream.go (which is present).  The definitions below are a shallow
  embedding of that behaviour:

  - strings are byte sequences (List Nat, each < 256); the string formatter
    follows encodeStringTests / TestUnsupportedValues / TestEncodeKey:
    C0 controls are escaped (two-character escapes for \b \t \n \f \r,
    uppercase four-digit \u escapes otherwise), the quote and backslash are
    escaped, every other Unicode scalar is copied as raw UTF-8, a WTF-8
    lone-surrogate triple is escaped as an uppercase \u escape (but a high
    surrogate immediately followed by a low surrogate is rejected), and any
    other ill-formed byte sequence is an UnsupportedValueError;

  - numbers are canonicalized from their decimal representation: zero prints
    as 0, other integral values print as an optional minus followed by their
    digits, and non-integral values print as d.dddEe with a single leading
    nonzero digit, no trailing fractional zeros (except one forcing the
    decimal point), and a shortest exponent carrying a minus sign only when
    negative (TestFloat, TestOmitEmpty, stream_test expectations);

  - the struct-field conflict resolution (type introspector) and the
    streaming encoder are modelled after the package documentation and
    stream.go respectively.
-/

namespace CanonJson

/-! ## Bytes and hexadecimal digits -/

/-- Uppercase hexadecimal digit as an ASCII byte (0-9 then A-F),
    as used by the \uXXXX escapes in encodeStringTests. -/
def hexDigitU (n : Nat) : Nat :=
  if n < 10 then 48 + n else 55 + n

/-- Four-digit uppercase \uXXXX escape of a code point below 0x10000. -/
def escU (c : Nat) : List Nat :=
  [0x5C, 0x75, hexDigitU (c / 4096 % 16), hexDigitU (c / 256 % 16),
   hexDigitU (c / 16 % 16), hexDigitU (c % 16)]

/-- UTF-8 continuation byte test (0x80..0xBF). -/
def isCont (b : Nat) : Bool :=
  0x80 ≤ b && b ≤ 0xBF

/-- Code point of a two-byte UTF-8 sequence. -/
def rune2 (b0 b1 : Nat) : Nat := (b0 - 0xC0) * 64 + (b1 - 0x80)

/-- Code point of a three-byte UTF-8 sequence. -/
def rune3 (b0 b1 b2 : Nat) : Nat :=
  (b0 - 0xE0) * 4096 + (b1 - 0x80) * 64 + (b2 - 0x80)

/-- Code point of a four-byte UTF-8 sequence. -/
def rune4 (b0 b1 b2 b3 : Nat) : Nat :=
  (b0 - 0xF0) * 262144 + (b1 - 0x80) * 4096 + (b2 - 0x80) * 64 + (b3 - 0x80)

/-- Valid two-byte UTF-8 head and continuation (Go utf8.DecodeRune rules). -/
def valid2 (b0 b1 : Nat) : Bool :=
  0xC2 ≤ b0 && b0 ≤ 0xDF && isCont b1

/-- Valid three-byte UTF-8 sequence, excluding surrogates
    (Go utf8.DecodeRune rules: 0xE0 wants 0xA0..0xBF, 0xED wants 0x80..0x9F). -/
def valid3 (b0 b1 b2 : Nat) : Bool :=
  ((b0 = 0xE0 && 0xA0 ≤ b1 && b1 ≤ 0xBF) ||
   (0xE1 ≤ b0 && b0 ≤ 0xEC && isCont b1) ||
   (b0 = 0xED && 0x80 ≤ b1 && b1 ≤ 0x9F) ||
   (0xEE ≤ b0 && b0 ≤ 0xEF && isCont b1)) && isCont b2

/-- Valid four-byte UTF-8 sequence
    (0xF0 wants 0x90..0xBF, 0xF4 wants 0x80..0x8F). -/
def valid4 (b0 b1 b2 b3 : Nat) : Bool :=
  ((b0 = 0xF0 && 0x90 ≤ b1 && b1 ≤ 0xBF) ||
   (0xF1 ≤ b0 && b0 ≤ 0xF3 && isCont b1) ||
   (b0 = 0xF4 && 0x80 ≤ b1 && b1 ≤ 0x8F)) && isCont b2 && isCont b3

/-- WTF-8 surrogate triple 0xED 0xA0..0xBF 0x80..0xBF
    (encodes a code point in 0xD800..0xDFFF). -/
def surr3 (b0 b1 b2 : Nat) : Bool :=
  b0 = 0xED && 0xA0 ≤ b1 && b1 ≤ 0xBF && isCont b2

/-- The triple encodes a high surrogate (0xD800..0xDBFF). -/
def highSurr3 (b0 b1 : Nat) : Bool :=
  b0 = 0xED && 0xA0 ≤ b1 && b1 ≤ 0xAF

/-- The byte list starts with a WTF-8 low-surrogate triple (0xDC00..0xDFFF). -/
def startsLowSurr : List Nat → Bool
  | c0 :: c1 :: c2 :: _ => c0 = 0xED && 0xB0 ≤ c1 && c1 ≤ 0xBF && isCont c2
  | _ => false

/-! ## String formatter (component 4.B)

Body of the emitted JSON string literal, without the surrounding quotes.
Returns none exactly when the Go encoder fails with UnsupportedValueError
(ill-formed UTF-8 beyond lone surrogates; see TestUnsupportedValues). -/

def strBody : List Nat → Option (List Nat)
  | [] => some []
  | b0 :: t0 =>
    if b0 = 0x22 then (strBody t0).map (fun r => 0x5C :: 0x22 :: r)
    else if b0 = 0x5C then (strBody t0).map (fun r => 0x5C :: 0x5C :: r)
    else if b0 = 0x08 then (strBody t0).map (fun r => 0x5C :: 0x62 :: r)
    else if b0 = 0x09 then (strBody t0).map (fun r => 0x5C :: 0x74 :: r)
    else if b0 = 0x0A then (strBody t0).map (fun r => 0x5C :: 0x6E :: r)
    else if b0 = 0x0C then (strBody t0).map (fun r => 0x5C :: 0x66 :: r)
    else if b0 = 0x0D then (strBody t0).map (fun r => 0x5C :: 0x72 :: r)
    else if b0 < 0x20 then (strBody t0).map (fun r => escU b0 ++ r)
    else if b0 < 0x80 then (strBody t0).map (fun r => b0 :: r)
    else
      match t0 with
      | [] => none
      | b1 :: t1 =>
        if valid2 b0 b1 then (strBody t1).map (fun r => b0 :: b1 :: r)
        else
          match t1 with
          | [] => none
          | b2 :: t2 =>
            if valid3 b0 b1 b2 then
              (strBody t2).map (fun r => b0 :: b1 :: b2 :: r)
            else if surr3 b0 b1 b2 then
              if highSurr3 b0 b1 && startsLowSurr t2 then none
              else (strBody t2).map (fun r => escU (rune3 b0 b1 b2) ++ r)
            else
              match t2 with
              | [] => none
              | b3 :: t3 =>
                if valid4 b0 b1 b2 b3 then
                  (strBody t3).map (fun r => b0 :: b1 :: b2 :: b3 :: r)
                else none

/-- The emitted JSON string literal for a byte sequence (text or byte-slice
    typed input): quote, escaped body, quote.  none = UnsupportedValueError. -/
def stringEnc (s : List Nat) : Option (List Nat) :=
  (strBody s).map (fun r => 0x22 :: r ++ [0x22])

/-! Sanity checks against encodeStringTests and TestUnsupportedValues. -/

example : stringEnc [] = some [0x22, 0x22] := by decide
example : stringEnc [0x1A] =
    some [0x22, 0x5C, 0x75, 0x30, 0x30, 0x31, 0x41, 0x22] := by decide
example : stringEnc [0x08] = some [0x22, 0x5C, 0x62, 0x22] := by decide
example : stringEnc [0x7F] = some [0x22, 0x7F, 0x22] := by decide
example : stringEnc [0xE6, 0x97, 0xA5] = some [0x22, 0xE6, 0x97, 0xA5, 0x22] := by
  decide
example : stringEnc [0xED, 0xA0, 0x80] =
    some [0x22, 0x5C, 0x75, 0x44, 0x38, 0x30, 0x30, 0x22] := by decide
example : stringEnc [0xED, 0xBF, 0xBF, 0xED, 0xA0, 0x80] =
    some ([0x22, 0x5C, 0x75, 0x44, 0x46, 0x46, 0x46] ++
          [0x5C, 0x75, 0x44, 0x38, 0x30, 0x30, 0x22]) := by decide
example : stringEnc [0x80] = none := by decide
example : stringEnc [0xCF] = none := by decide
example : stringEnc [0xED] = none := by decide
example : stringEnc [0xED, 0xA0] = none := by decide
example : stringEnc [0xED, 0xA0, 0x7E] = none := by decide
example : stringEnc [0xED, 0xA0, 0xC0] = none := by decide
example : stringEnc [0xF8, 0x82, 0x83, 0x84] = none := by decide
example : stringEnc [0xED, 0xA0, 0x80, 0xED, 0xBF, 0xBF] = none := by decide
example : stringEnc [0xED, 0xA0, 0x80, 0xED] = none := by decide
example : stringEnc [0xFF] = none := by decide
example : stringEnc [0x68, 0x65, 0x6C, 0x6C, 0x6F, 0xFF] = none := by decide

/-! ## Number formatter (component 4.A)

The Go encoder obtains a decimal representation (strconv shortest
round-trip form for binary floats, the literal text for Number values) and
rewrites it into canonical form.  We model a decimal as sign, integer-part
digits, fraction digits and a decimal exponent, and the canonical rewrite
as a pure function of that data. -/

/-- Error taxonomy (component 4.G), restricted to what the claims need. -/
inductive Err where
  | unsupportedValue : Err
  | unsupportedType : Err
  | marshaler : Err
  | ioError : Nat → Err
deriving DecidableEq, Repr

/-- Digits of a natural, little-endian, with explicit fuel (the fuel is an
    upper bound on the number, so the recursion is structural and the kernel
    can evaluate it). -/
def natDigitsLEAux : Nat → Nat → List Nat
  | _, 0 => []
  | 0, _ + 1 => []
  | f + 1, n + 1 => ((n + 1) % 10) :: natDigitsLEAux f ((n + 1) / 10)

/-- Digits of a natural, little-endian; empty exactly for zero. -/
def natDigitsLE (n : Nat) : List Nat :=
  natDigitsLEAux n n

/-- ASCII decimal digits of a natural number (no leading zero; 0 prints 0). -/
def natDec (n : Nat) : List Nat :=
  if n = 0 then [48] else ((natDigitsLE n).reverse).map (fun d => 48 + d)

/-- ASCII decimal digits of an integer, minus sign only when negative. -/
def intDec (i : Int) : List Nat :=
  (if i < 0 then [0x2D] else []) ++ natDec i.natAbs

/-- Value of a big-endian digit list. -/
def natOfDigits (l : List Nat) : Nat :=
  l.foldl (fun a d => 10 * a + d) 0

/-- Drop leading zero digits. -/
def stripLead (l : List Nat) : List Nat :=
  l.dropWhile (fun d => d = 0)

/-- Drop trailing zero digits. -/
def stripTrail (l : List Nat) : List Nat :=
  (l.reverse.dropWhile (fun d => d = 0)).reverse

/-- A decimal lexeme split into parts: sign, integer-part digit values,
    fraction digit values, exponent. -/
structure DecParts where
  neg : Bool
  intp : List Nat
  frac : List Nat
  exp : Int
deriving DecidableEq, Repr

/-- Significant digits: leading and trailing zeros removed. -/
def sigOf (p : DecParts) : List Nat :=
  stripTrail (stripLead (p.intp ++ p.frac))

/-- Power of ten carried by the significant digits: the value of the
    decimal is plus or minus natOfDigits (sigOf p) * 10 ^ e10Of p. -/
def e10Of (p : DecParts) : Int :=
  p.exp - p.frac.length +
    ((stripLead (p.intp ++ p.frac)).length - (sigOf p).length)

/-- Fraction digits of the significand: the digits after the leading one,
    or a single forcing zero when there are none. -/
def fracBytes (ds : List Nat) : List Nat :=
  match ds with
  | [] => [48]
  | _ => ds.map (fun x => 48 + x)

/-- Canonical emission from sign, significant digits and power of ten:
    zero prints as 0; an integral value (e10 nonnegative) prints as digits
    with no point and no exponent; anything else prints as
    d.dddEe with one nonzero leading digit, at least one fraction digit,
    and the exponent in shortest form with a sign only when negative
    (pinned by TestFloat, TestOmitEmpty and the stream_test expectations). -/
def emitCanon (neg : Bool) (sig : List Nat) (e10 : Int) : List Nat :=
  match sig with
  | [] => [48]
  | d :: ds =>
    let signPart := if neg then [0x2D] else []
    if 0 ≤ e10 then
      signPart ++ (d :: ds).map (fun x => 48 + x) ++ List.replicate e10.toNat 48
    else
      signPart ++ [48 + d, 0x2E] ++ fracBytes ds ++ [0x45] ++
        intDec ((ds.length : Int) + e10)

/-- Canonical form of a decimal. -/
def canonicalOfParts (p : DecParts) : List Nat :=
  emitCanon p.neg (sigOf p) (e10Of p)

/-- A binary floating-point input: NaN, an infinity, or a finite value
    given by its shortest round-trip decimal (sign, significant digits,
    power of ten), the form produced by strconv for a double. -/
inductive FloatVal where
  | nan : FloatVal
  | inf : Bool → FloatVal
  | finite : Bool → List Nat → Int → FloatVal
deriving DecidableEq, Repr

/-- Number formatter on a binary float: UnsupportedValueError exactly for
    NaN and the infinities, canonical decimal otherwise
    (TestUnsupportedValues, TestFloat). -/
def encodeFloat : FloatVal → Except Err (List Nat)
  | .nan => .error .unsupportedValue
  | .inf _ => .error .unsupportedValue
  | .finite neg sig exp => .ok (canonicalOfParts ⟨neg, sig, [], exp⟩)

/-- Integer-typed inputs print as optional minus and digits. -/
def encodeInt (i : Int) : List Nat :=
  intDec i

/-! ### JSON number lexeme parsing (Number / json.Number inputs) -/

/-- ASCII decimal digit test. -/
def isDigitB (b : Nat) : Bool :=
  48 ≤ b && b ≤ 57

/-- Optional leading minus of a number lexeme. -/
def parseSign (s : List Nat) : Bool × List Nat :=
  match s with
  | b :: r => if b = 0x2D then (true, r) else (false, s)
  | [] => (false, [])

/-- Optional fraction part: a point followed by one or more digits. -/
def parseFrac (r1 : List Nat) : Option (List Nat × List Nat) :=
  match r1 with
  | b :: r2 =>
    if b = 0x2E then
      if (r2.takeWhile isDigitB).isEmpty then none
      else some (r2.takeWhile isDigitB, r2.dropWhile isDigitB)
    else some ([], r1)
  | [] => some ([], [])

/-- Optional sign of the exponent. -/
def parseExpSign (r : List Nat) : Bool × List Nat :=
  match r with
  | b :: rt =>
    if b = 0x2D then (true, rt)
    else if b = 0x2B then (false, rt)
    else (false, r)
  | [] => (false, r)

/-- Optional exponent part: e or E, an optional sign, one or more digits. -/
def parseExpPart (r3 : List Nat) : Option (Int × List Nat) :=
  match r3 with
  | b :: r4 =>
    if b = 0x65 || b = 0x45 then
      if ((parseExpSign r4).2.takeWhile isDigitB).isEmpty then none
      else
        some
          ((if (parseExpSign r4).1
              then -(natOfDigits (((parseExpSign r4).2.takeWhile isDigitB).map
                      (fun x => x - 48)) : Int)
              else (natOfDigits (((parseExpSign r4).2.takeWhile isDigitB).map
                      (fun x => x - 48)) : Int)),
           (parseExpSign r4).2.dropWhile isDigitB)
    else none
  | [] => some (0, [])

/-- Parse a decimal-literal byte sequence under the JSON number grammar
    (minus? int frac? exp?); none models the UnsupportedValueError raised
    for a malformed literal (TestIssue10281). -/
def parseNum (s : List Nat) : Option DecParts :=
  let neg := (parseSign s).1
  let s1 := (parseSign s).2
  let ids := s1.takeWhile isDigitB
  let r1 := s1.dropWhile isDigitB
  match ids with
  | [] => none
  | d0 :: drest =>
    if d0 = 48 && !drest.isEmpty then none
    else
      match parseFrac r1 with
      | none => none
      | some (fds, r3) =>
        match parseExpPart r3 with
        | none => none
        | some (ev, r6) =>
          if r6.isEmpty then
            some ⟨neg, (d0 :: drest).map (fun b => b - 48),
                  fds.map (fun b => b - 48), ev⟩
          else none

/-- Number formatter on a decimal literal supplied as text. -/
def encodeNumberLit (s : List Nat) : Except Err (List Nat) :=
  match parseNum s with
  | none => .error .unsupportedValue
  | some p => .ok (canonicalOfParts p)

/-! Sanity checks against TestFloat, TestOmitEmpty and stream_test. -/

/-- Bytes of an ASCII string literal, convenience for tests. -/
def asciiBytes (s : String) : List Nat :=
  s.data.map Char.toNat

example : encodeNumberLit (asciiBytes "0.025") = .ok (asciiBytes "2.5E-2") := rfl
example : encodeNumberLit (asciiBytes "2.5e-2") = .ok (asciiBytes "2.5E-2") := rfl
example : encodeNumberLit (asciiBytes "0.250e-1") = .ok (asciiBytes "2.5E-2") := rfl
example : encodeNumberLit (asciiBytes "250e-4") = .ok (asciiBytes "2.5E-2") := rfl
example : encodeNumberLit (asciiBytes "0.025e-1") = .ok (asciiBytes "2.5E-3") := rfl
example : encodeNumberLit (asciiBytes "250.00e-2") = .ok (asciiBytes "2.5E0") := rfl
example : encodeNumberLit (asciiBytes "25.00") = .ok (asciiBytes "25") := rfl
example : encodeNumberLit (asciiBytes "250.0e-1") = .ok (asciiBytes "25") := rfl
example : encodeNumberLit (asciiBytes "25.0e2") = .ok (asciiBytes "2500") := rfl
example : encodeNumberLit (asciiBytes "invalid") = .error .unsupportedValue := rfl
example : encodeNumberLit (asciiBytes "05") = .error .unsupportedValue := rfl
example : encodeFloat (.finite false [1] (-1)) = .ok (asciiBytes "1.0E-1") := rfl
example : encodeFloat (.finite false [3, 1, 4] (-2)) = .ok (asciiBytes "3.14E0") := rfl
example : encodeFloat (.finite false [] 0) = .ok (asciiBytes "0") := rfl
example : encodeFloat (.finite false [2, 5] 2) = .ok (asciiBytes "2500") := rfl
example : encodeFloat (.finite true [5] 2) = .ok (asciiBytes "-500") := rfl
example : encodeFloat .nan = .error .unsupportedValue := rfl
example : encodeFloat (.inf true) = .error .unsupportedValue := rfl

/-! ## Object emitter (component 4.E)

The map branch of the walker collects the raw key strings, sorts them
(byte-lexicographically, which on valid UTF-8 agrees with code point
order), then encodes each key with the string formatter and emits the
members; TestEncodeKey pins that the sort happens on the raw keys, before
escaping. -/

/-- Strict byte-lexicographic order on byte lists. -/
def bytesLt : List Nat → List Nat → Bool
  | _, [] => false
  | [], _ :: _ => true
  | a :: as_, b :: bs => if a < b then true else if b < a then false else bytesLt as_ bs

/-- Reflexive byte-lexicographic order. -/
def bytesLe (a b : List Nat) : Bool :=
  !bytesLt b a

/-- One key-value pair: raw key bytes and the already-encoded member value. -/
abbrev KVPair := List Nat × List Nat

/-- Insert a pair into a list sorted by raw key bytes. -/
def insertPair (p : KVPair) : List KVPair → List KVPair
  | [] => [p]
  | q :: rest =>
    if bytesLe p.1 q.1 then p :: q :: rest else q :: insertPair p rest

/-- Sort the members of an object by raw key bytes (insertion sort; the Go
    code sorts the key strings before encoding them). -/
def sortPairs : List KVPair → List KVPair
  | [] => []
  | p :: rest => insertPair p (sortPairs rest)

/-- Comma-join member fragments. -/
def joinComma : List (List Nat) → List Nat
  | [] => []
  | [m] => m
  | m :: rest => m ++ 0x2C :: joinComma rest

/-- Emit a JSON object from raw-key / encoded-value pairs: sort by raw key
    bytes, encode each key with the string formatter, join with commas in
    braces.  none when a key is not encodable. -/
def marshalObject (kvs : List KVPair) : Option (List Nat) :=
  let sorted := sortPairs kvs
  let members := sorted.mapM (fun kv => (stringEnc kv.1).map (fun ek => ek ++ 0x3A :: kv.2))
  members.map (fun ms => 0x7B :: (joinComma ms ++ [0x7D]))

/-- Raw keys in emission order. -/
def objectKeysRaw (kvs : List KVPair) : List (List Nat) :=
  (sortPairs kvs).map (fun kv => kv.1)

/-- Canonical-encoded keys (with quotes and escapes) in emission order. -/
def objectKeysEnc (kvs : List KVPair) : Option (List (List Nat)) :=
  (objectKeysRaw kvs).mapM stringEnc

/-- Strictly ascending chain under byte-lexicographic order. -/
def chainAsc : List (List Nat) → Bool
  | [] => true
  | [_] => true
  | a :: b :: rest => bytesLt a b && chainAsc (b :: rest)

/-! Sanity: the stream_test object with keys U+00DF and U+212A. -/

example :
    marshalObject
      [([0xE2, 0x84, 0xAA], 0x22 :: asciiBytes "Kelvin" ++ [0x22]),
       ([0xC3, 0x9F], 0x22 :: asciiBytes "long s" ++ [0x22])] =
    some ([0x7B, 0x22, 0xC3, 0x9F, 0x22, 0x3A] ++ (0x22 :: asciiBytes "long s" ++ [0x22]) ++
          [0x2C, 0x22, 0xE2, 0x84, 0xAA, 0x22, 0x3A] ++ (0x22 :: asciiBytes "Kelvin" ++ [0x22]) ++
          [0x7D]) := by decide

/-! ## Type introspector conflict resolution (component 4.C) -/

/-- A candidate field competing for one output key: nesting depth of the
    field, whether its name was supplied by a tag, and an identifying index. -/
structure FieldD where
  depth : Nat
  tagged : Bool
  idx : Nat
deriving DecidableEq, Repr

/-- Least nesting depth among the candidates. -/
def minDepth : List FieldD → Nat
  | [] => 0
  | f :: rest => rest.foldr (fun g m => min g.depth m) f.depth

/-- Modelled from the spec: the field-resolution code (typeFields and its
    dominant-field selection) is not among the provided sources; this is the
    resolution documented in the package documentation, in the Go style:
    keep the fields at the least depth, count the tagged ones, select the
    single tagged one, otherwise the single remaining one, otherwise drop. -/
def dominantOf (fs : List FieldD) : Option FieldD :=
  match fs with
  | [] => none
  | _ :: _ =>
    let c := fs.filter (fun f => f.depth = minDepth fs)
    let t := c.filter (fun f => f.tagged)
    if t.length = 1 then t.head?
    else if t.length = 0 && c.length = 1 then c.head?
    else none

/-- Modelled from the spec: the same resolution in the claim's wording —
    shallower fields dominate outright; if any competitor is tagged, drop
    all untagged competitors; select iff exactly one candidate remains. -/
def specSelect (fs : List FieldD) : Option FieldD :=
  match fs with
  | [] => none
  | _ :: _ =>
    let c := fs.filter (fun f => f.depth = minDepth fs)
    let rem := if c.any (fun f => f.tagged) then c.filter (fun f => f.tagged) else c
    match rem with
    | [f] => some f
    | _ => none

/-! Sanity: the embedded-struct tests (TestEmbeddedBug, TestTaggedFieldDominates,
TestDuplicatedFieldDisappears). -/

example : dominantOf [⟨1, false, 0⟩, ⟨2, false, 1⟩] = some ⟨1, false, 0⟩ := by decide
example : dominantOf [⟨2, false, 0⟩, ⟨2, true, 1⟩] = some ⟨2, true, 1⟩ := by decide
example : dominantOf [⟨2, false, 0⟩, ⟨2, false, 1⟩, ⟨3, false, 2⟩, ⟨3, true, 3⟩] =
    none := by decide

/-! ## Streaming encoder (component 4.F, from stream.go) -/

/-- Encoder state: the write sink's sticky error (stream.go, field err). -/
structure EncoderSt where
  err : Option Err
deriving DecidableEq, Repr

/-- A fresh encoder (NewEncoder). -/
def newEncoder : EncoderSt :=
  ⟨none⟩

/-- One call of Encoder.Encode, translated from stream.go.
    marshalResult is the outcome of e.marshal(v); sinkErr is what the single
    w.Write call would return if issued.  Result: the error returned to the
    caller, the successor state, and the list of writes issued to the sink. -/
def encodeStep (s : EncoderSt) (marshalResult : Except Err (List Nat))
    (sinkErr : Option Err) : Option Err × EncoderSt × List (List Nat) :=
  match s.err with
  | some e => (some e, s, [])
  | none =>
    match marshalResult with
    | .error e => (some e, s, [])
    | .ok bs =>
      let buf := bs ++ [0x0A]
      match sinkErr with
      | some we => (some we, ⟨some we⟩, [buf])
      | none => (none, s, [buf])

/-- A sequence of Encode calls: per-call results, final state, all writes. -/
def encodeRun (s : EncoderSt) :
    List (Except Err (List Nat) × Option Err) →
      List (Option Err) × EncoderSt × List (List Nat)
  | [] => ([], s, [])
  | (m, w) :: rest =>
    let step := encodeStep s m w
    let tail := encodeRun step.2.1 rest
    (step.1 :: tail.1, tail.2.1, step.2.2 ++ tail.2.2)

example :
    encodeRun newEncoder
      [(.ok (asciiBytes "true"), none),
       (.error .unsupportedValue, none),
       (.ok (asciiBytes "null"), some (.ioError 5)),
       (.ok (asciiBytes "1"), none)] =
    ([none, some .unsupportedValue, some (.ioError 5), some (.ioError 5)],
     ⟨some (.ioError 5)⟩,
     [asciiBytes "true" ++ [0x0A], asciiBytes "null" ++ [0x0A]]) := by decide

/-! ## Helper lemmas for field resolution -/

/-- Fold computing the least depth is bounded by its initial value. -/
lemma foldr_min_le_init (fs : List FieldD) (d : Nat) :
    fs.foldr (fun g m => min g.depth m) d ≤ d := by
  induction fs with
  | nil => simp
  | cons f rest ih =>
    simpa using le_trans (min_le_right _ _) ih

/-- Fold computing the least depth is bounded by every member's depth. -/
lemma foldr_min_le_mem (fs : List FieldD) (d : Nat) (g : FieldD) (hg : g ∈ fs) :
    fs.foldr (fun g m => min g.depth m) d ≤ g.depth := by
  induction fs with
  | nil => cases hg
  | cons f rest ih =>
    rcases List.mem_cons.mp hg with h | h
    · subst h; exact min_le_left _ _
    · exact le_trans (min_le_right _ _) (ih h)

/-- The least depth is a lower bound for every candidate. -/
lemma minDepth_le (fs : List FieldD) (g : FieldD) (hg : g ∈ fs) :
    minDepth fs ≤ g.depth := by
  cases fs with
  | nil => cases hg
  | cons f rest =>
    rcases List.mem_cons.mp hg with h | h
    · subst h; exact foldr_min_le_init _ _
    · exact foldr_min_le_mem _ _ _ h

/-! ## Claim theorems: struct-field conflict resolution -/

/-- Elements are recovered from a successful head?. -/
lemma head?_mem {α : Type} (l : List α) (x : α) (h : l.head? = some x) : x ∈ l := by
  cases l with
  | nil => cases h
  | cons a rest =>
    simp only [List.head?] at h
    cases h
    exact List.mem_cons_self _ _

/-- Core branch analysis shared by both formulations of the selection. -/
lemma select_core_eq (c : List FieldD) :
    (if (c.filter (fun f => f.tagged)).length = 1
       then (c.filter (fun f => f.tagged)).head?
     else if (c.filter (fun f => f.tagged)).length = 0 && c.length = 1
       then c.head? else none) =
    (match (if c.any (fun f => f.tagged)
              then c.filter (fun f => f.tagged) else c) with
     | [f] => some f
     | _ => none) := by
  rcases htv : c.filter (fun f => f.tagged) with _ | ⟨x, _ | ⟨y, r2⟩⟩
  · have hany : c.any (fun f => f.tagged) = false := by
      cases hb : c.any (fun f => f.tagged)
      · rfl
      · rcases List.any_eq_true.mp hb with ⟨z, hz, hpz⟩
        exact absurd hpz (by simpa using List.filter_eq_nil_iff.mp htv z hz)
    rw [htv, hany]
    simp only [List.length_nil, if_neg (by omega : ¬(0 = 1)), Bool.true_and,
      if_true, Bool.false_eq_true, if_false]
    rcases c with _ | ⟨a, _ | ⟨b, r⟩⟩ <;> simp
  · have hany : c.any (fun f => f.tagged) = true := by
      have hx : x ∈ c.filter (fun f => f.tagged) := by
        rw [htv]; exact List.mem_cons_self _ _
      have := List.mem_filter.mp hx
      exact List.any_eq_true.mpr ⟨x, this.1, this.2⟩
    rw [htv, hany]
    simp
  · have hany : c.any (fun f => f.tagged) = true := by
      have hx : x ∈ c.filter (fun f => f.tagged) := by
        rw [htv]; exact List.mem_cons_self _ _
      have := List.mem_filter.mp hx
      exact List.any_eq_true.mpr ⟨x, this.1, this.2⟩
    rw [htv, hany]
    simp

/-- A selected field belongs to the least-depth candidates. -/
lemma dominantOf_mem_minfilter (fs : List FieldD) (f : FieldD)
    (hf : dominantOf fs = some f) :
    f ∈ fs.filter (fun g => g.depth = minDepth fs) := by
  cases fs with
  | nil => cases hf
  | cons f0 rest =>
    simp only [dominantOf] at hf
    by_cases h1 :
        (((f0 :: rest).filter (fun g => g.depth = minDepth (f0 :: rest))).filter
          (fun g => g.tagged)).length = 1
    · rw [if_pos h1] at hf
      exact List.mem_of_mem_filter (head?_mem _ _ hf)
    · rw [if_neg h1] at hf
      by_cases h2 :
          ((((f0 :: rest).filter (fun g => g.depth = minDepth (f0 :: rest))).filter
            (fun g => g.tagged)).length = 0 &&
            ((f0 :: rest).filter (fun g => g.depth = minDepth (f0 :: rest))).length = 1)
          = true
      · rw [if_pos h2] at hf
        exact head?_mem _ _ hf
      · rw [if_neg h2] at hf
        cases hf

/-- C8: when fields compete for one output key, the Go-style dominant-field
    selection agrees with the spec's rules (shallower fields dominate
    outright; tagged fields drop untagged competitors at the same depth; a
    single remaining candidate is selected and any other situation drops
    the key silently); moreover a selected field is always of least depth,
    and is tagged whenever any least-depth competitor is tagged. -/
theorem dominant_field_resolution (fs : List FieldD) :
    dominantOf fs = specSelect fs ∧
    (∀ f, dominantOf fs = some f →
      (∀ g ∈ fs, f.depth ≤ g.depth) ∧
      ((∃ g ∈ fs, g.depth = minDepth fs ∧ g.tagged) → f.tagged)) := by
  constructor
  · cases fs with
    | nil => rfl
    | cons f0 rest =>
      simp only [dominantOf, specSelect]
      exact select_core_eq _
  · intro f hf
    have hmem := dominantOf_mem_minfilter fs f hf
    have hdep : f.depth = minDepth fs :=
      of_decide_eq_true (List.mem_filter.mp hmem).2
    refine ⟨?_, ?_⟩
    · intro g hg
      rw [hdep]; exact minDepth_le _ _ hg
    · rintro ⟨g, hg, hgd, hgt⟩
      cases fs with
      | nil => cases hf
      | cons f0 rest =>
        simp only [dominantOf] at hf
        have hgc : g ∈ (f0 :: rest).filter (fun x => x.depth = minDepth (f0 :: rest)) :=
          List.mem_filter.mpr ⟨hg, decide_eq_true hgd⟩
        have hgt2 : g ∈ ((f0 :: rest).filter
            (fun x => x.depth = minDepth (f0 :: rest))).filter (fun x => x.tagged) :=
          List.mem_filter.mpr ⟨hgc, hgt⟩
        have htne : ((f0 :: rest).filter
            (fun x => x.depth = minDepth (f0 :: rest))).filter (fun x => x.tagged) ≠ [] :=
          List.ne_nil_of_mem hgt2
        by_cases h1 : (((f0 :: rest).filter
            (fun x => x.depth = minDepth (f0 :: rest))).filter
            (fun x => x.tagged)).length = 1
        · rw [if_pos h1] at hf
          exact (List.mem_filter.mp (head?_mem _ _ hf)).2
        · rw [if_neg h1] at hf
          have h0 : (((f0 :: rest).filter
              (fun x => x.depth = minDepth (f0 :: rest))).filter
              (fun x => x.tagged)).length ≠ 0 := by
            intro h; exact htne (List.eq_nil_of_length_eq_zero h)
          split at hf
          next h2 =>
            simp only [Bool.and_eq_true, decide_eq_true_eq] at h2
            exact absurd h2.1 h0
          next => cases hf

/-- C8 witness: the TestTaggedFieldDominates scenario (one tagged and one
    untagged field at the same depth): the tagged field is selected, it has
    least depth, and it is tagged. -/
theorem dominant_field_resolution_witness :
    dominantOf [⟨2, false, 0⟩, ⟨2, true, 1⟩] =
      specSelect [⟨2, false, 0⟩, ⟨2, true, 1⟩] ∧
    (FieldD.mk 2 true 1).depth ≤ 2 ∧ (FieldD.mk 2 true 1).tagged = true := by
  have h := dominant_field_resolution [⟨2, false, 0⟩, ⟨2, true, 1⟩]
  have hsel : dominantOf [⟨2, false, 0⟩, ⟨2, true, 1⟩] = some ⟨2, true, 1⟩ := by
    decide
  have h2 := h.2 ⟨2, true, 1⟩ hsel
  exact ⟨h.1, h2.1 ⟨2, false, 0⟩ (by decide),
    h2.2 ⟨⟨2, true, 1⟩, by decide, by decide, rfl⟩⟩

/-! ## Claim theorems: streaming encoder (stream.go) -/

/-- C9: a successful Encode issues exactly one write, whose content is the
    canonical serialization of the value followed by a single newline; a
    write error is stored in the sticky field, and once the sticky error is
    set every subsequent Encode call returns that same error and issues no
    further write. -/
theorem encode_single_write_and_sticky_error :
    (∀ (s : EncoderSt) (bs : List Nat),
      s.err = none →
      encodeStep s (.ok bs) none = (none, s, [bs ++ [0x0A]])) ∧
    (∀ (s : EncoderSt) (bs : List Nat) (we : Err),
      s.err = none →
      encodeStep s (.ok bs) (some we) = (some we, ⟨some we⟩, [bs ++ [0x0A]])) ∧
    (∀ (s : EncoderSt) (e : Err)
      (calls : List (Except Err (List Nat) × Option Err)),
      s.err = some e →
      (encodeRun s calls).1 = List.replicate calls.length (some e) ∧
      (encodeRun s calls).2.2 = []) := by
  refine ⟨?_, ?_, ?_⟩
  · intro s bs h
    cases s with
    | mk e => cases e with
      | none => rfl
      | some x => simp at h
  · intro s bs we h
    cases s with
    | mk e => cases e with
      | none => rfl
      | some x => simp at h
  · intro s e calls h
    induction calls generalizing s with
    | nil => exact ⟨rfl, rfl⟩
    | cons c rest ih =>
      obtain ⟨m, w⟩ := c
      cases s with
      | mk serr =>
        cases serr with
        | none => simp at h
        | some x =>
          cases h
          have hstep : encodeStep ⟨some e⟩ m w = (some e, ⟨some e⟩, []) := rfl
          have := ih ⟨some e⟩ rfl
          simp only [encodeRun, hstep]
          exact ⟨by rw [this.1]; rfl, this.2⟩

/-- C9 witness: a fresh encoder successfully encodes a value with a single
    exact write, then a failing write leaves the sticky error set, and both
    later calls return that same error with no writes. -/
theorem encode_single_write_and_sticky_error_witness :
    encodeStep newEncoder (.ok (asciiBytes "true")) none =
      (none, newEncoder, [asciiBytes "true" ++ [0x0A]]) ∧
    encodeStep newEncoder (.ok (asciiBytes "null")) (some (.ioError 5)) =
      (some (.ioError 5), ⟨some (.ioError 5)⟩, [asciiBytes "null" ++ [0x0A]]) ∧
    (encodeRun ⟨some (.ioError 5)⟩
        [(.ok (asciiBytes "1"), none), (.ok (asciiBytes "2"), none)]).1 =
      List.replicate 2 (some (.ioError 5)) ∧
    (encodeRun ⟨some (.ioError 5)⟩
        [(.ok (asciiBytes "1"), none), (.ok (asciiBytes "2"), none)]).2.2 = [] := by
  have h := encode_single_write_and_sticky_error
  have h3 := h.2.2 ⟨some (.ioError 5)⟩ (.ioError 5)
    [(.ok (asciiBytes "1"), none), (.ok (asciiBytes "2"), none)] rfl
  exact ⟨h.1 newEncoder (asciiBytes "true") rfl,
    h.2.1 newEncoder (asciiBytes "null") (.ioError 5) rfl, h3.1, h3.2⟩

/-- C10: a marshal failure inside Encode is atomic and not sticky: the
    error is returned, nothing is written, the sticky field stays clear,
    and a subsequent Encode with a supported value succeeds normally. -/
theorem marshal_error_not_sticky :
    ∀ (s : EncoderSt) (e : Err) (w : Option Err) (bs : List Nat),
      s.err = none →
      encodeStep s (.error e) w = (some e, s, []) ∧
      encodeStep (encodeStep s (.error e) w).2.1 (.ok bs) none =
        (none, s, [bs ++ [0x0A]]) := by
  intro s e w bs h
  cases s with
  | mk serr =>
    cases serr with
    | none => exact ⟨rfl, rfl⟩
    | some x => simp at h

/-- C10 witness: after an UnsupportedValueError from marshaling, the same
    encoder still writes the next supported value. -/
theorem marshal_error_not_sticky_witness :
    encodeStep newEncoder (.error .unsupportedValue) none =
      (some .unsupportedValue, newEncoder, []) ∧
    encodeStep (encodeStep newEncoder (.error .unsupportedValue) none).2.1
        (.ok (asciiBytes "true")) none =
      (none, newEncoder, [asciiBytes "true" ++ [0x0A]]) := by
  exact marshal_error_not_sticky newEncoder .unsupportedValue none
    (asciiBytes "true") rfl

/-! ## Claim theorems: integral numbers (C3) -/

/-- C3: integral numeric values are emitted in the integer grammar — an
    optional minus followed by decimal digits only; concretely the encoder
    yields 2500 for floating 2500.0, and likewise digit-only forms 1, 0 and
    -500 for floating 1.0, 0.0 and -500.0 (as TestFloat, TestOmitEmpty and
    the package documentation require; the stale expectations in
    scanner_test.go demand exponential forms for these same inputs and
    cannot be satisfied simultaneously). -/
theorem integral_values_digit_only :
    (∀ (neg : Bool) (sig : List Nat) (e10 : Int),
      0 ≤ e10 → (∀ d ∈ sig, d < 10) →
      ∀ b ∈ emitCanon neg sig e10, b = 0x2D ∨ (48 ≤ b ∧ b ≤ 57)) ∧
    encodeFloat (.finite false [2, 5] 2) = .ok (asciiBytes "2500") ∧
    encodeFloat (.finite false [1] 0) = .ok (asciiBytes "1") ∧
    encodeFloat (.finite false [] 0) = .ok (asciiBytes "0") ∧
    encodeFloat (.finite true [5] 2) = .ok (asciiBytes "-500") ∧
    encodeInt 2500 = asciiBytes "2500" ∧
    encodeInt (-500) = asciiBytes "-500" := by
  refine ⟨?_, rfl, rfl, rfl, rfl, rfl, rfl⟩
  intro neg sig e10 he hd b hb
  match sig with
  | [] =>
    simp only [emitCanon] at hb
    rcases List.mem_singleton.mp hb with h
    omega
  | d :: ds =>
    simp only [emitCanon, if_pos he] at hb
    rcases List.mem_append.mp hb with h | h
    · rcases List.mem_append.mp h with h | h
      · rcases neg with _ | _
        · simp at h
        · simp only [if_true] at h
          left; exact List.mem_singleton.mp h
      · rcases List.mem_map.mp h with ⟨x, hx, rfl⟩
        have := hd x hx
        right; omega
    · have := List.eq_of_mem_replicate h
      right; omega

/-- C3 witness: the integer-grammar byte property applied to the digits of
    floating 2500.0 (significand 25, power 2). -/
theorem integral_values_digit_only_witness :
    ∀ b ∈ emitCanon false [2, 5] 2, b = 0x2D ∨ (48 ≤ b ∧ b ≤ 57) :=
  integral_values_digit_only.1 false [2, 5] 2 (by decide)
    (by intro d hd; fin_cases hd <;> decide)

/-! ## Claim theorems: exponential form (C4) -/

/-- C4 counterexample: the value 2.5 is emitted in exponential form as
    2.5E0 — the shape required by TestFloat — whose exponent carries no
    sign at all, refuting the claim that the exponent sign is always
    present (and with it the claim that a positive exponent carries an
    explicit plus: the canonical form of 250.00e-2, value 2.5, simply has
    no sign byte after E). -/
theorem exp_sign_always_present_false :
    canonicalOfParts ⟨false, [2], [5], 0⟩ = asciiBytes "2.5E0" ∧
    encodeNumberLit (asciiBytes "250.00e-2") = .ok (asciiBytes "2.5E0") ∧
    (0x2B ∉ asciiBytes "2.5E0") ∧
    (0x2D ∉ asciiBytes "2.5E0") := by
  exact ⟨rfl, rfl, by decide, by decide⟩

/-! ## Digit-list helper lemmas -/

/-- Every digit produced by the little-endian digit expansion is below 10. -/
lemma natDigitsLEAux_lt (f : Nat) : ∀ n, ∀ d ∈ natDigitsLEAux f n, d < 10 := by
  induction f with
  | zero =>
    intro n d hd
    cases n with
    | zero => cases hd
    | succ m => cases hd
  | succ g ih =>
    intro n d hd
    cases n with
    | zero => cases hd
    | succ m =>
      simp only [natDigitsLEAux] at hd
      rcases List.mem_cons.mp hd with h | h
      · subst h; exact Nat.mod_lt _ (by norm_num)
      · exact ih _ _ h

/-- With enough fuel the digit expansion of a positive number is nonempty. -/
lemma natDigitsLEAux_ne_nil (f n : Nat) (h0 : 0 < n) (hf : n ≤ f) :
    natDigitsLEAux f n ≠ [] := by
  cases n with
  | zero => omega
  | succ m =>
    cases f with
    | zero => omega
    | succ g => simp [natDigitsLEAux]

/-- The last cell of a cons with nonempty tail is the tail's last cell. -/
lemma getLast?_cons_ne {α : Type} (a : α) (l : List α) (h : l ≠ []) :
    (a :: l).getLast? = l.getLast? := by
  cases l with
  | nil => exact absurd rfl h
  | cons b r => exact List.getLast?_cons_cons

/-- The most significant digit (the last in little-endian order) of a
    positive number is nonzero. -/
lemma natDigitsLEAux_getLast (f : Nat) : ∀ n, 0 < n → n ≤ f →
    (natDigitsLEAux f n).getLast? ≠ some 0 := by
  induction f with
  | zero => intro n h0 hf; omega
  | succ g ih =>
    intro n h0 hf
    cases n with
    | zero => omega
    | succ m =>
      simp only [natDigitsLEAux]
      by_cases hq : (m + 1) / 10 = 0
      · rw [hq]
        simp only [natDigitsLEAux, List.getLast?_singleton]
        intro h
        have h2 : (m + 1) % 10 = 0 := by
          injection h
        omega
      · have h1 : 0 < (m + 1) / 10 := Nat.pos_of_ne_zero hq
        have h2 : (m + 1) / 10 ≤ g := by
          have := Nat.div_lt_self (Nat.succ_pos m) (by norm_num : 1 < 10)
          omega
        have hne := natDigitsLEAux_ne_nil g ((m + 1) / 10) h1 h2
        rw [getLast?_cons_ne _ _ hne]
        exact ih _ h1 h2

/-- Shape of the printed natural: nonempty, ASCII digits only, and no
    leading zero (except the single digit 0 itself). -/
lemma natDec_shape (n : Nat) :
    natDec n ≠ [] ∧ (∀ b ∈ natDec n, 48 ≤ b ∧ b ≤ 57) ∧
    ((natDec n).head? = some 48 → natDec n = [48]) := by
  by_cases h : n = 0
  · subst h
    refine ⟨by decide, by decide, fun _ => rfl⟩
  · have h0 : 0 < n := Nat.pos_of_ne_zero h
    simp only [natDec, if_neg h]
    have hne : natDigitsLE n ≠ [] := natDigitsLEAux_ne_nil n n h0 le_rfl
    refine ⟨?_, ?_, ?_⟩
    · simp only [ne_eq, List.map_eq_nil_iff, List.reverse_eq_nil_iff]
      exact hne
    · intro b hb
      rcases List.mem_map.mp hb with ⟨d, hd, rfl⟩
      have := natDigitsLEAux_lt n n d (List.mem_reverse.mp hd)
      omega
    · intro hhead
      exfalso
      rw [List.head?_map] at hhead
      rcases hh : (natDigitsLE n).reverse.head? with _ | d
      · rw [hh] at hhead; cases hhead
      · rw [hh] at hhead
        have h48 : 48 + d = 48 := by
          have := Option.map_eq_some'.mp hhead
          rcases this with ⟨x, hx, hx2⟩
          cases hx
          omega
        have hd0 : d = 0 := by omega
        rw [List.head?_reverse] at hh
        exact natDigitsLEAux_getLast n n h0 le_rfl (hd0 ▸ hh)

/-- Shape of the printed integer: an optional leading minus (present iff
    the value is negative), then the natural part, and never a plus sign. -/
lemma intDec_shape (i : Int) :
    intDec i = (if i < 0 then [0x2D] else []) ++ natDec i.natAbs ∧
    0x2B ∉ intDec i := by
  refine ⟨rfl, ?_⟩
  intro hmem
  simp only [intDec, List.mem_append] at hmem
  rcases hmem with h | h
  · split at h
    · rcases List.mem_singleton.mp h with h2
      cases h2
    · cases h
  · have := (natDec_shape i.natAbs).2.1 _ h
    omega

/-! ## Zero-stripping helper lemmas -/

/-- The head surviving dropWhile does not satisfy the dropped predicate. -/
lemma head_dropWhile_not {α : Type} (p : α → Bool) :
    ∀ (l : List α) (x : α), (l.dropWhile p).head? = some x → p x = false := by
  intro l x
  induction l with
  | nil => intro h; cases h
  | cons a rest ih =>
    intro h
    by_cases hp : p a = true
    · rw [List.dropWhile_cons_of_pos hp] at h
      exact ih h
    · rw [List.dropWhile_cons_of_neg hp] at h
      have : a = x := by injection h
      subst this
      simpa using hp

/-- Trailing-zero decomposition: a digit list is its stripped form followed
    by a run of zeros. -/
lemma stripTrail_decomp (l : List Nat) :
    l = stripTrail l ++
      List.replicate (l.length - (stripTrail l).length) 0 := by
  have hsplit := List.takeWhile_append_dropWhile (p := fun d => d = 0) (l := l.reverse)
  have hlen : (l.reverse.takeWhile (fun d => d = 0)).length =
      l.length - (stripTrail l).length := by
    have h1 : (stripTrail l).length = (l.reverse.dropWhile (fun d => d = 0)).length := by
      simp [stripTrail]
    have h2 : (l.reverse.takeWhile (fun d => d = 0)).length +
        (l.reverse.dropWhile (fun d => d = 0)).length = l.length := by
      have h3 := congrArg List.length hsplit
      rw [List.length_append, List.length_reverse] at h3
      exact h3
    omega
  have hzeros : (l.reverse.takeWhile (fun d => d = 0)).reverse =
      List.replicate (l.length - (stripTrail l).length) 0 := by
    rw [List.eq_replicate_iff]
    refine ⟨by rw [List.length_reverse]; exact hlen, fun b hb => ?_⟩
    have := List.mem_takeWhile_imp (List.mem_reverse.mp hb)
    exact of_decide_eq_true this
  calc l = l.reverse.reverse := (List.reverse_reverse l).symm
    _ = (l.reverse.takeWhile (fun d => d = 0) ++
          l.reverse.dropWhile (fun d => d = 0)).reverse := by rw [hsplit]
    _ = (l.reverse.dropWhile (fun d => d = 0)).reverse ++
          (l.reverse.takeWhile (fun d => d = 0)).reverse := by
            rw [List.reverse_append]
    _ = stripTrail l ++ List.replicate (l.length - (stripTrail l).length) 0 := by
            rw [hzeros]
            rfl

/-- The stripped form never ends in a zero digit. -/
lemma stripTrail_getLast (l : List Nat) :
    (stripTrail l).getLast? ≠ some 0 := by
  intro h
  simp only [stripTrail] at h
  rw [← List.head?_reverse, List.reverse_reverse] at h
  have := head_dropWhile_not (fun d => d = 0) l.reverse 0 h
  simp at this

/-- The stripped form never starts with a zero digit after leading zeros
    were removed. -/
lemma stripLead_head (l : List Nat) :
    (stripLead l).head? ≠ some 0 := by
  intro h
  simp only [stripLead] at h
  have := head_dropWhile_not (fun d => d = 0) l 0 h
  simp at this

/-- Stripping preserves membership bounds. -/
lemma mem_stripTrail {d : Nat} {l : List Nat} (h : d ∈ stripTrail l) : d ∈ l := by
  have hdec := stripTrail_decomp l
  have : d ∈ stripTrail l ++
      List.replicate (l.length - (stripTrail l).length) 0 :=
    List.mem_append.mpr (Or.inl h)
  rw [← hdec] at this
  exact this

/-- Leading-zero stripping preserves membership bounds. -/
lemma mem_stripLead {d : Nat} {l : List Nat} (h : d ∈ stripLead l) : d ∈ l :=
  (List.dropWhile_sublist _).mem h

/-- The head of the stripped form is the head of its input when nonempty. -/
lemma stripTrail_head (l : List Nat) (h : stripTrail l ≠ []) :
    (stripTrail l).head? = l.head? := by
  have hdec := stripTrail_decomp l
  rcases hs : stripTrail l with _ | ⟨a, rest⟩
  · exact absurd hs h
  · rw [hs] at hdec
    have h2 : l.head? = some a := by
      rw [hdec]
      rfl
    rw [hs] at h
    rw [h2]
    rfl

/-! ## Properties of the significant digits -/

/-- Significant digits stay below 10 and have nonzero extremities. -/
lemma sigOf_props (p : DecParts) (hd : ∀ d ∈ p.intp ++ p.frac, d < 10) :
    (∀ d ∈ sigOf p, d < 10) ∧
    ((sigOf p).head? = some 0 → False) ∧
    ((sigOf p).getLast? = some 0 → False) := by
  refine ⟨?_, ?_, ?_⟩
  · intro d hdm
    exact hd d (mem_stripLead (mem_stripTrail hdm))
  · intro h
    have hne : sigOf p ≠ [] := by
      intro hnil; rw [hnil] at h; cases h
    rw [sigOf, stripTrail_head _ hne] at h
    exact stripLead_head _ h
  · intro h
    exact stripTrail_getLast _ h

/-- C4 amended: every number emitted in exponential form (a nonzero value
    whose power of ten is negative) has the shape sign, one nonzero digit,
    point, nonempty fraction with trailing zeros stripped except a lone
    forcing zero, then E and a shortest exponent with no leading zero whose
    minus sign appears exactly when the exponent is negative — and never a
    plus sign. -/
theorem exp_form_normalized (p : DecParts)
    (hd : ∀ d ∈ p.intp ++ p.frac, d < 10)
    (hs : sigOf p ≠ [])
    (he : e10Of p < 0) :
    ∃ (m : Nat) (fr ex : List Nat),
      canonicalOfParts p =
        (if p.neg then [0x2D] else []) ++ (m :: 0x2E :: fr) ++ (0x45 :: ex) ∧
      49 ≤ m ∧ m ≤ 57 ∧
      fr ≠ [] ∧ (∀ b ∈ fr, 48 ≤ b ∧ b ≤ 57) ∧
      (fr.getLast? = some 48 → fr = [48]) ∧
      (∃ eds, ex = (if (((sigOf p).length - 1 : Int) + e10Of p < 0)
              then [0x2D] else []) ++ eds ∧
        eds ≠ [] ∧ (∀ b ∈ eds, 48 ≤ b ∧ b ≤ 57) ∧
        (eds.head? = some 48 → eds = [48]) ∧
        0x2B ∉ ex) := by
  obtain ⟨hlt, hhead, hlast⟩ := sigOf_props p hd
  rcases hsv : sigOf p with _ | ⟨d, ds⟩
  · exact absurd hsv hs
  · have hd0 : d ≠ 0 := by
      intro h
      exact hhead (by rw [hsv, h]; rfl)
    have hdlt : d < 10 := hlt d (by rw [hsv]; exact List.mem_cons_self _ _)
    refine ⟨48 + d, fracBytes ds,
      intDec ((ds.length : Int) + e10Of p), ?_, by omega, by omega, ?_, ?_, ?_, ?_⟩
    · rw [canonicalOfParts, hsv]
      simp only [emitCanon, if_neg (by omega : ¬(0 : Int) ≤ e10Of p)]
      cases ds <;> simp [fracBytes]
    · cases ds <;> simp [fracBytes]
    · intro b hb
      cases ds with
      | nil =>
        simp only [fracBytes] at hb
        rcases List.mem_singleton.mp hb with h
        omega
      | cons x rest =>
        simp only [fracBytes] at hb
        rcases List.mem_map.mp hb with ⟨y, hy, rfl⟩
        have : y < 10 := hlt y (by rw [hsv]; exact List.mem_cons_of_mem _ hy)
        omega
    · intro hfr
      cases ds with
      | nil => rfl
      | cons x rest =>
        exfalso
        simp only [fracBytes] at hfr
        rcases hgl : (x :: rest).getLast? with _ | y
        · simp at hgl
        · have hmap : ((x :: rest).map (fun v => 48 + v)).getLast? = some (48 + y) := by
            rw [List.getLast?_map, hgl]
            rfl
          rw [hmap] at hfr
          have hy0 : y = 0 := by
            have h48 : 48 + y = 48 := by injection hfr
            omega
          apply hlast
          rw [hsv, getLast?_cons_ne _ _ (by simp), hgl, hy0]
    · refine ⟨natDec ((ds.length : Int) + e10Of p).natAbs, ?_,
        (natDec_shape _).1, (natDec_shape _).2.1, (natDec_shape _).2.2, ?_⟩
      · have h1 := (intDec_shape ((ds.length : Int) + e10Of p)).1
        rw [h1]
        have hcond : (((d :: ds).length : Int) - 1 + e10Of p) =
            ((ds.length : Int) + e10Of p) := by
          simp only [List.length_cons]
          push_cast
          omega
        rw [hcond]
      · exact (intDec_shape _).2

/-- C4 amended witness: the exponential shape at the concrete value 2.5
    (parts of the lexeme 2.5, emitted as 2.5E0). -/
theorem exp_form_normalized_witness :
    ∃ (m : Nat) (fr ex : List Nat),
      canonicalOfParts ⟨false, [2], [5], 0⟩ =
        (if (false : Bool) then [0x2D] else []) ++ (m :: 0x2E :: fr) ++ (0x45 :: ex) ∧
      49 ≤ m ∧ m ≤ 57 ∧
      fr ≠ [] ∧ (∀ b ∈ fr, 48 ≤ b ∧ b ≤ 57) ∧
      (fr.getLast? = some 48 → fr = [48]) ∧
      (∃ eds, ex = (if (((sigOf ⟨false, [2], [5], 0⟩).length - 1 : Int) +
              e10Of ⟨false, [2], [5], 0⟩ < 0) then [0x2D] else []) ++ eds ∧
        eds ≠ [] ∧ (∀ b ∈ eds, 48 ≤ b ∧ b ≤ 57) ∧
        (eds.head? = some 48 → eds = [48]) ∧
        0x2B ∉ ex) :=
  exp_form_normalized ⟨false, [2], [5], 0⟩
    (by intro d hd; fin_cases hd <;> decide) (by decide) (by decide)

/-! ## Byte-order lemmas and object member ordering (C2) -/

/-- The strict byte order is asymmetric. -/
lemma bytesLt_asymm : ∀ (a b : List Nat),
    bytesLt a b = true → bytesLt b a = false := by
  intro a
  induction a with
  | nil =>
    intro b h
    cases b with
    | nil => simp [bytesLt] at h
    | cons y ys => rfl
  | cons x xs ih =>
    intro b h
    cases b with
    | nil => simp [bytesLt] at h
    | cons y ys =>
      simp only [bytesLt] at h ⊢
      by_cases hxy : x < y
      · rw [if_neg (by omega), if_pos hxy]
      · rw [if_neg hxy] at h
        by_cases hyx : y < x
        · rw [if_pos hyx] at h
          cases h
        · rw [if_neg hyx] at h
          rw [if_neg hyx, if_neg hxy]
          exact ih ys h

/-- The strict byte order is trichotomous. -/
lemma bytesLt_trichotomy : ∀ (a b : List Nat),
    a = b ∨ bytesLt a b = true ∨ bytesLt b a = true := by
  intro a
  induction a with
  | nil =>
    intro b
    cases b with
    | nil => exact Or.inl rfl
    | cons y ys => exact Or.inr (Or.inl rfl)
  | cons x xs ih =>
    intro b
    cases b with
    | nil => exact Or.inr (Or.inr rfl)
    | cons y ys =>
      by_cases hxy : x < y
      · exact Or.inr (Or.inl (by simp only [bytesLt]; rw [if_pos hxy]))
      · by_cases hyx : y < x
        · exact Or.inr (Or.inr (by simp only [bytesLt]; rw [if_pos hyx]))
        · have hxy2 : x = y := by omega
          subst hxy2
          rcases ih ys with h | h | h
          · exact Or.inl (by rw [h])
          · exact Or.inr (Or.inl (by
              simp only [bytesLt]
              rw [if_neg (by omega), if_neg (by omega)]
              exact h))
          · exact Or.inr (Or.inr (by
              simp only [bytesLt]
              rw [if_neg (by omega), if_neg (by omega)]
              exact h))

/-- The strict byte order is transitive. -/
lemma bytesLt_trans : ∀ (a b c : List Nat),
    bytesLt a b = true → bytesLt b c = true → bytesLt a c = true := by
  intro a
  induction a with
  | nil =>
    intro b c hab hbc
    cases b with
    | nil => simp [bytesLt] at hab
    | cons y ys =>
      cases c with
      | nil => simp [bytesLt] at hbc
      | cons z zs => rfl
  | cons x xs ih =>
    intro b c hab hbc
    cases b with
    | nil => simp [bytesLt] at hab
    | cons y ys =>
      cases c with
      | nil => simp [bytesLt] at hbc
      | cons z zs =>
        simp only [bytesLt] at hab hbc ⊢
        by_cases hxy : x < y
        · have hyz : y < z ∨ y = z := by
            by_cases h1 : y < z
            · exact Or.inl h1
            · by_cases h2 : z < y
              · rw [if_neg h1, if_pos h2] at hbc; cases hbc
              · exact Or.inr (by omega)
          have hxz : x < z := by omega
          rw [if_pos hxz]
        · rw [if_neg hxy] at hab
          by_cases hyx : y < x
          · rw [if_pos hyx] at hab; cases hab
          · rw [if_neg hyx] at hab
            have hxy2 : x = y := by omega
            subst hxy2
            by_cases hxz : x < z
            · rw [if_pos hxz]
            · rw [if_neg hxz] at hbc ⊢
              by_cases hzx : z < x
              · rw [if_pos hzx] at hbc; cases hbc
              · rw [if_neg hzx] at hbc ⊢
                exact ih ys zs hab hbc

/-- Reflexive order: totality. -/
lemma bytesLe_total (a b : List Nat) :
    bytesLe a b = true ∨ bytesLe b a = true := by
  rcases bytesLt_trichotomy a b with h | h | h
  · subst h
    left
    simp only [bytesLe, Bool.not_eq_true']
    rcases hv : bytesLt a a with _ | _
    · rfl
    · have := bytesLt_asymm a a hv
      rw [hv] at this
      cases this
  · left
    simp only [bytesLe, Bool.not_eq_true']
    exact bytesLt_asymm a b h
  · right
    simp only [bytesLe, Bool.not_eq_true']
    exact bytesLt_asymm b a h

/-- Reflexive order: transitivity. -/
lemma bytesLe_trans (a b c : List Nat)
    (hab : bytesLe a b = true) (hbc : bytesLe b c = true) :
    bytesLe a c = true := by
  simp only [bytesLe, Bool.not_eq_true'] at hab hbc ⊢
  rcases hv : bytesLt c a with _ | _
  · rfl
  · exfalso
    rcases bytesLt_trichotomy a b with h | h | h
    · subst h
      rw [hv] at hbc
      cases hbc
    · have := bytesLt_trans c a b hv h
      rw [this] at hbc
      cases hbc
    · rw [h] at hab
      cases hab

/-- A nonstrict comparison between distinct keys is strict. -/
lemma bytesLt_of_le_ne (a b : List Nat)
    (hle : bytesLe a b = true) (hne : a ≠ b) : bytesLt a b = true := by
  rcases bytesLt_trichotomy a b with h | h | h
  · exact absurd h hne
  · exact h
  · simp only [bytesLe, Bool.not_eq_true'] at hle
    rw [hle] at h
    cases h

/-- Insertion produces a permutation. -/
lemma insertPair_perm (p : KVPair) : ∀ (l : List KVPair),
    (insertPair p l).Perm (p :: l) := by
  intro l
  induction l with
  | nil => exact List.Perm.refl _
  | cons q rest ih =>
    simp only [insertPair]
    by_cases h : bytesLe p.1 q.1 = true
    · rw [if_pos h]
    · rw [if_neg h]
      exact (List.Perm.cons q ih).trans (List.Perm.swap p q rest)

/-- The insertion sort produces a permutation of its input. -/
lemma sortPairs_perm : ∀ (l : List KVPair), (sortPairs l).Perm l := by
  intro l
  induction l with
  | nil => exact List.Perm.refl _
  | cons p rest ih =>
    exact (insertPair_perm p (sortPairs rest)).trans (List.Perm.cons p ih)

/-- Insertion preserves sortedness by key. -/
lemma insertPair_pairwise (p : KVPair) : ∀ (l : List KVPair),
    l.Pairwise (fun a b => bytesLe a.1 b.1 = true) →
    (insertPair p l).Pairwise (fun a b => bytesLe a.1 b.1 = true) := by
  intro l
  induction l with
  | nil => intro _; exact List.pairwise_singleton _ _
  | cons q rest ih =>
    intro hp
    rcases List.pairwise_cons.mp hp with ⟨hq, hrest⟩
    simp only [insertPair]
    by_cases h : bytesLe p.1 q.1 = true
    · rw [if_pos h]
      refine List.pairwise_cons.mpr ⟨?_, hp⟩
      intro x hx
      rcases List.mem_cons.mp hx with hx | hx
      · subst hx; exact h
      · exact bytesLe_trans _ _ _ h (hq x hx)
    · rw [if_neg h]
      refine List.pairwise_cons.mpr ⟨?_, ih hrest⟩
      intro x hx
      have hx2 : x ∈ p :: rest := (insertPair_perm p rest).mem_iff.mp hx
      rcases List.mem_cons.mp hx2 with hx2 | hx2
      · rw [hx2]
        rcases bytesLe_total p.1 q.1 with h2 | h2
        · exact absurd h2 h
        · exact h2
      · exact hq x hx2

/-- The sort is sorted by key. -/
lemma sortPairs_pairwise : ∀ (l : List KVPair),
    (sortPairs l).Pairwise (fun a b => bytesLe a.1 b.1 = true) := by
  intro l
  induction l with
  | nil => exact List.Pairwise.nil
  | cons p rest ih => exact insertPair_pairwise p (sortPairs rest) ih

/-- A pairwise strictly-ordered list passes the ascending-chain check. -/
lemma chainAsc_of_pairwise : ∀ (l : List (List Nat)),
    l.Pairwise (fun a b => bytesLt a b = true) → chainAsc l = true := by
  intro l
  induction l with
  | nil => intro _; rfl
  | cons a rest ih =>
    intro hp
    rcases List.pairwise_cons.mp hp with ⟨ha, hrest⟩
    cases rest with
    | nil => rfl
    | cons b rest2 =>
      simp only [chainAsc, Bool.and_eq_true]
      exact ⟨ha b (List.mem_cons_self _ _), ih hrest⟩

/-- C2 counterexample: for the mapping with keys U+0000 and U+0008 (from
    TestEncodeKey), the emitted member order is the raw-codepoint order
    with the key for U+0000 first, although the canonical-encoded key bytes
    compare the other way — the escape of U+0008 is the two-character
    sequence backslash-b, which is byte-wise smaller than the six-character
    escape of U+0000 — so the members are not in ascending order of the
    encoded key bytes, refuting the claim as stated. -/
theorem object_key_order_encoded_counterexample :
    objectKeysEnc [([0x00], asciiBytes "null"), ([0x08], asciiBytes "null")] =
      some [[0x22, 0x5C, 0x75, 0x30, 0x30, 0x30, 0x30, 0x22],
            [0x22, 0x5C, 0x62, 0x22]] ∧
    chainAsc [[0x22, 0x5C, 0x75, 0x30, 0x30, 0x30, 0x30, 0x22],
              [0x22, 0x5C, 0x62, 0x22]] = false ∧
    bytesLt [0x22, 0x5C, 0x62, 0x22]
      [0x22, 0x5C, 0x75, 0x30, 0x30, 0x30, 0x30, 0x22] = true := by
  exact ⟨by decide, by decide, by decide⟩

/-- C2 amended: every emitted object has its members in strictly ascending
    byte-lexicographic order of the raw (unescaped) key strings —
    equivalently code point order — with no duplicates; in the stream_test
    example the key SMALL LETTER SHARP S (U+00DF) precedes KELVIN SIGN
    (U+212A). -/
theorem object_member_order (kvs : List KVPair)
    (h : (kvs.map (fun kv => kv.1)).Nodup) :
    chainAsc (objectKeysRaw kvs) = true := by
  apply chainAsc_of_pairwise
  have hperm : ((sortPairs kvs).map (fun kv => kv.1)).Perm
      (kvs.map (fun kv => kv.1)) := (sortPairs_perm kvs).map _
  have hnodup : ((sortPairs kvs).map (fun kv => kv.1)).Nodup :=
    hperm.nodup_iff.mpr h
  have hle : ((sortPairs kvs).map (fun kv => kv.1)).Pairwise
      (fun a b => bytesLe a b = true) :=
    List.pairwise_map.mpr (sortPairs_pairwise kvs)
  have hne : ((sortPairs kvs).map (fun kv => kv.1)).Pairwise (fun a b => a ≠ b) :=
    hnodup
  rw [objectKeysRaw]
  exact List.Pairwise.imp₂ (fun a b h1 h2 => bytesLt_of_le_ne a b h1 h2)
    hle hne

/-- C2 amended witness: the stream_test mapping (keys U+00DF and U+212A)
    is emitted with strictly ascending raw key bytes, and its full emission
    matches the bytes the test expects. -/
theorem object_member_order_witness :
    chainAsc (objectKeysRaw
      [([0xE2, 0x84, 0xAA], 0x22 :: asciiBytes "Kelvin" ++ [0x22]),
       ([0xC3, 0x9F], 0x22 :: asciiBytes "long s" ++ [0x22])]) = true :=
  object_member_order _ (by decide)

/-! ## The JSON number grammar and the literal parser (C5) -/

/-- A nonempty run of ASCII digits. -/
def DigitsOK (l : List Nat) : Prop :=
  l ≠ [] ∧ ∀ b ∈ l, 48 ≤ b ∧ b ≤ 57

/-- The JSON number grammar (RFC 7159: minus? int frac? exp?), stated as a
    decomposition of the lexeme. -/
def JSONNumber (s : List Nat) : Prop :=
  ∃ sign ip fp ep : List Nat,
    s = sign ++ ip ++ fp ++ ep ∧
    (sign = [] ∨ sign = [0x2D]) ∧
    DigitsOK ip ∧ (ip.head? = some 48 → ip = [48]) ∧
    (fp = [] ∨ ∃ fd, fp = 0x2E :: fd ∧ DigitsOK fd) ∧
    (ep = [] ∨ ∃ e es ed, (e = 0x65 ∨ e = 0x45) ∧ ep = e :: (es ++ ed) ∧
      (es = [] ∨ es = [0x2B] ∨ es = [0x2D]) ∧ DigitsOK ed)

/-- Splitting a digit run followed by a non-digit boundary. -/
lemma span_exact (ds rest : List Nat)
    (hall : ∀ b ∈ ds, isDigitB b = true)
    (hhead : ∀ x, rest.head? = some x → isDigitB x = false) :
    (ds ++ rest).takeWhile isDigitB = ds ∧
    (ds ++ rest).dropWhile isDigitB = rest := by
  induction ds with
  | nil =>
    simp only [List.nil_append]
    cases rest with
    | nil => exact ⟨rfl, rfl⟩
    | cons r rt =>
      have hr : isDigitB r = false := hhead r rfl
      constructor
      · rw [List.takeWhile_cons_of_neg (by simp [hr])]
      · rw [List.dropWhile_cons_of_neg (by simp [hr])]
  | cons d ds ih =>
    have hd : isDigitB d = true := hall d (List.mem_cons_self _ _)
    have ihall : ∀ b ∈ ds, isDigitB b = true :=
      fun b hb => hall b (List.mem_cons_of_mem _ hb)
    obtain ⟨h1, h2⟩ := ih ihall
    constructor
    · rw [List.cons_append, List.takeWhile_cons_of_pos (by simp [hd]), h1]
    · rw [List.cons_append, List.dropWhile_cons_of_pos (by simp [hd]), h2]

/-- Soundness of the sign stage: the input is the consumed sign followed by
    the remainder. -/
lemma parseSign_decomp (s : List Nat) :
    s = (if (parseSign s).1 then [0x2D] else []) ++ (parseSign s).2 := by
  cases s with
  | nil => rfl
  | cons b r =>
    by_cases h : b = 0x2D
    · subst h
      simp [parseSign]
    · simp [parseSign, h]

/-- Soundness of the fraction stage. -/
lemma parseFrac_sound (r1 fds r3 : List Nat)
    (h : parseFrac r1 = some (fds, r3)) :
    (fds = [] ∧ r3 = r1) ∨
    (r1 = 0x2E :: (fds ++ r3) ∧ fds ≠ [] ∧ ∀ b ∈ fds, isDigitB b = true) := by
  cases r1 with
  | nil =>
    simp only [parseFrac] at h
    injection h with h
    injection h with h1 h2
    exact Or.inl ⟨h1.symm, h2.symm⟩
  | cons b r2 =>
    simp only [parseFrac] at h
    by_cases hb : b = 0x2E
    · rw [if_pos hb] at h
      by_cases he : (r2.takeWhile isDigitB).isEmpty = true
      · rw [if_pos he] at h
        cases h
      · rw [if_neg he] at h
        injection h with h
        injection h with h1 h2
        refine Or.inr ⟨?_, ?_, ?_⟩
        · rw [hb, ← h1, ← h2, List.takeWhile_append_dropWhile]
        · rw [← h1]
          simpa using he
        · intro x hx
          rw [← h1] at hx
          exact List.mem_takeWhile_imp hx
    · rw [if_neg hb] at h
      injection h with h
      injection h with h1 h2
      exact Or.inl ⟨h1.symm, h2.symm⟩

/-- Soundness of the exponent-sign stage. -/
lemma parseExpSign_decomp (r : List Nat) :
    ∃ es, r = es ++ (parseExpSign r).2 ∧
      (es = [] ∨ es = [0x2B] ∨ es = [0x2D]) := by
  cases r with
  | nil => exact ⟨[], rfl, Or.inl rfl⟩
  | cons b rt =>
    by_cases h1 : b = 0x2D
    · subst h1
      exact ⟨[0x2D], by simp [parseExpSign], Or.inr (Or.inr rfl)⟩
    · by_cases h2 : b = 0x2B
      · subst h2
        exact ⟨[0x2B], by simp [parseExpSign, h1], Or.inr (Or.inl rfl)⟩
      · exact ⟨[], by simp [parseExpSign, h1, h2], Or.inl rfl⟩

/-- Soundness of the exponent stage. -/
lemma parseExpPart_sound (r3 : List Nat) (ev : Int) (r6 : List Nat)
    (h : parseExpPart r3 = some (ev, r6)) :
    (r3 = [] ∧ r6 = []) ∨
    (∃ e es ed, (e = 0x65 ∨ e = 0x45) ∧ r3 = e :: (es ++ (ed ++ r6)) ∧
      (es = [] ∨ es = [0x2B] ∨ es = [0x2D]) ∧ ed ≠ [] ∧
      ∀ b ∈ ed, isDigitB b = true) := by
  cases r3 with
  | nil =>
    simp only [parseExpPart] at h
    injection h with h
    injection h with h1 h2
    exact Or.inl ⟨rfl, h2.symm⟩
  | cons b r4 =>
    simp only [parseExpPart] at h
    by_cases hb : (b = 0x65 || b = 0x45) = true
    · rw [if_pos hb] at h
      by_cases he : ((parseExpSign r4).2.takeWhile isDigitB).isEmpty = true
      · rw [if_pos he] at h
        cases h
      · rw [if_neg he] at h
        injection h with h
        injection h with h1 h2
        obtain ⟨es, hdec, hes⟩ := parseExpSign_decomp r4
        refine Or.inr ⟨b, es, (parseExpSign r4).2.takeWhile isDigitB,
          by simpa using hb, ?_, hes, by simpa using he, ?_⟩
        · rw [← h2, List.takeWhile_append_dropWhile, ← hdec]
        · intro x hx
          exact List.mem_takeWhile_imp hx
    · rw [if_neg hb] at h
      cases h

/-- Soundness: a successfully parsed lexeme satisfies the JSON number
    grammar. -/
lemma parseNum_sound (s : List Nat) (p : DecParts) (h : parseNum s = some p) :
    JSONNumber s := by
  simp only [parseNum] at h
  cases hids : (parseSign s).2.takeWhile isDigitB with
  | nil =>
    simp only [hids] at h
    exact Option.noConfusion h
  | cons d0 drest =>
    simp only [hids] at h
    by_cases hz : (d0 = 48 && !drest.isEmpty) = true
    · rw [if_pos hz] at h
      cases h
    · rw [if_neg hz] at h
      rcases hfr : parseFrac ((parseSign s).2.dropWhile isDigitB)
        with _ | ⟨fds, r3⟩
      · simp only [hfr] at h
        exact Option.noConfusion h
      · simp only [hfr] at h
        rcases hep : parseExpPart r3 with _ | ⟨ev, r6⟩
        · simp only [hep] at h
          exact Option.noConfusion h
        · simp only [hep] at h
          by_cases hr6 : r6.isEmpty = true
          · have hr6nil : r6 = [] := by simpa using hr6
            -- the decomposition pieces
            have hs1 : (parseSign s).2 =
                (d0 :: drest) ++ ((parseSign s).2.dropWhile isDigitB) := by
              conv_lhs =>
                rw [← List.takeWhile_append_dropWhile (p := isDigitB)
                      (l := (parseSign s).2)]
              rw [hids]
            have hipdig : ∀ b ∈ d0 :: drest, isDigitB b = true := by
              intro b hb
              rw [← hids] at hb
              exact List.mem_takeWhile_imp hb
            have hipdig2 : ∀ b ∈ d0 :: drest, 48 ≤ b ∧ b ≤ 57 := by
              intro b hb
              have := hipdig b hb
              simp only [isDigitB, Bool.and_eq_true, decide_eq_true_eq] at this
              exact this
            have hhead : (d0 :: drest).head? = some 48 → d0 :: drest = [48] := by
              intro hh
              have hd048 : d0 = 48 := by
                simpa using hh
              have hdrest : drest = [] := by
                by_contra hne
                apply hz
                simp [hd048, hne]
              rw [hd048, hdrest]
            -- fraction decomposition
            have hfrac :
                ((parseSign s).2.dropWhile isDigitB) =
                  (if fds.isEmpty then ([] : List Nat) else 0x2E :: fds) ++ r3 ∧
                ((if fds.isEmpty then ([] : List Nat) else 0x2E :: fds) = [] ∨
                  ∃ fd, (if fds.isEmpty then ([] : List Nat) else 0x2E :: fds) =
                      0x2E :: fd ∧ DigitsOK fd) := by
              rcases parseFrac_sound _ _ _ hfr with ⟨hfds, hr3⟩ | ⟨hdec, hne, hdig⟩
              · subst hfds
                constructor
                · simp only [List.isEmpty_nil, if_true, List.nil_append]
                  exact hr3.symm
                · exact Or.inl (by simp)
              · have hie : fds.isEmpty = false := by
                  cases fds with
                  | nil => exact absurd rfl hne
                  | cons a b => rfl
                rw [hie]
                simp only [Bool.false_eq_true, if_false]
                refine ⟨by rw [hdec]; rfl, Or.inr ⟨fds, rfl, hne, ?_⟩⟩
                intro b hb
                have := hdig b hb
                simp only [isDigitB, Bool.and_eq_true, decide_eq_true_eq] at this
                exact this
            -- exponent decomposition
            have hexp : r3 = r3 ∧
                (r3 = [] ∨ ∃ e es ed, (e = 0x65 ∨ e = 0x45) ∧
                  r3 = e :: (es ++ ed) ∧
                  (es = [] ∨ es = [0x2B] ∨ es = [0x2D]) ∧ DigitsOK ed) := by
              rcases parseExpPart_sound _ _ _ hep
                with ⟨hr3nil, _⟩ | ⟨e, es, ed, he, hdec2, hes, hedne, heddig⟩
              · exact ⟨rfl, Or.inl hr3nil⟩
              · refine ⟨rfl, Or.inr ⟨e, es, ed, he, ?_, hes, hedne, ?_⟩⟩
                · rw [hdec2, hr6nil, List.append_nil]
                · intro b hb
                  have := heddig b hb
                  simp only [isDigitB, Bool.and_eq_true, decide_eq_true_eq] at this
                  exact this
            refine ⟨if (parseSign s).1 then [0x2D] else [], d0 :: drest,
              if fds.isEmpty then [] else 0x2E :: fds, r3, ?_, ?_, ?_, hhead,
              hfrac.2, hexp.2⟩
            · conv_lhs => rw [parseSign_decomp s]
              rw [hs1, hfrac.1]
              simp [List.append_assoc]
            · by_cases hsg : (parseSign s).1 = true
              · rw [if_pos hsg]
                exact Or.inr rfl
              · rw [if_neg hsg]
                exact Or.inl rfl
            · exact ⟨by simp, hipdig2⟩
          · rw [if_neg hr6] at h
            cases h

/-- An all-digit list is consumed whole by takeWhile. -/
lemma takeWhile_all (l : List Nat) (hall : ∀ b ∈ l, isDigitB b = true) :
    l.takeWhile isDigitB = l ∧ l.dropWhile isDigitB = [] := by
  have h := span_exact l [] hall (fun x hx => by cases hx)
  simpa using h

/-- The fraction stage consumes nothing when the remainder does not start
    with a point. -/
lemma parseFrac_skip (ep : List Nat)
    (h : ep = [] ∨ ∃ e tail, ep = e :: tail ∧ e ≠ 0x2E) :
    parseFrac ep = some ([], ep) := by
  rcases h with rfl | ⟨e, tail, rfl, hne⟩
  · rfl
  · simp [parseFrac, hne]

/-- The exponent stage succeeds with empty remainder on a grammatical
    exponent part. -/
lemma parseExpPart_complete (ep : List Nat)
    (hep : ep = [] ∨ ∃ e es ed, (e = 0x65 ∨ e = 0x45) ∧ ep = e :: (es ++ ed) ∧
      (es = [] ∨ es = [0x2B] ∨ es = [0x2D]) ∧ DigitsOK ed) :
    ∃ ev, parseExpPart ep = some (ev, []) := by
  rcases hep with rfl | ⟨e, es, ed, he, rfl, hes, hedne, heddig⟩
  · exact ⟨0, rfl⟩
  · have heddigB : ∀ b ∈ ed, isDigitB b = true := by
      intro b hb
      have := heddig b hb
      simp only [isDigitB, Bool.and_eq_true, decide_eq_true_eq]
      omega
    have htw := takeWhile_all ed heddigB
    have hie : (ed.takeWhile isDigitB).isEmpty = false := by
      rw [htw.1]
      cases ed with
      | nil => exact absurd rfl hedne
      | cons a b => rfl
    have hetest : (decide (e = 0x65) || decide (e = 0x45)) = true := by
      rcases he with rfl | rfl <;> simp
    rcases hes with rfl | rfl | rfl
    · have hsign : parseExpSign ([] ++ ed) = (false, ed) := by
        simp only [List.nil_append]
        cases ed with
        | nil => exact absurd rfl hedne
        | cons d0 dt =>
          have hd0 := heddig d0 (List.mem_cons_self _ _)
          have h1 : d0 ≠ 0x2D := by omega
          have h2 : d0 ≠ 0x2B := by omega
          simp [parseExpSign, h1, h2]
      refine ⟨(natOfDigits ((ed.takeWhile isDigitB).map (fun x => x - 48)) : Int),
        ?_⟩
      simp only [parseExpPart, hetest, if_true, hsign, hie, Bool.false_eq_true,
        if_false, htw.2]
    · have hsign : parseExpSign ([0x2B] ++ ed) = (false, ed) := by
        simp [parseExpSign]
      refine ⟨(natOfDigits ((ed.takeWhile isDigitB).map (fun x => x - 48)) : Int),
        ?_⟩
      simp only [parseExpPart, hetest, if_true, hsign, hie, Bool.false_eq_true,
        if_false, htw.2]
    · have hsign : parseExpSign ([0x2D] ++ ed) = (true, ed) := by
        simp [parseExpSign]
      refine ⟨-(natOfDigits ((ed.takeWhile isDigitB).map (fun x => x - 48)) : Int),
        ?_⟩
      simp only [parseExpPart, hetest, if_true, hsign, hie, Bool.false_eq_true,
        if_false, htw.2]

/-- Completeness: every lexeme satisfying the JSON number grammar parses. -/
lemma parseNum_complete (s : List Nat) (h : JSONNumber s) :
    (parseNum s).isSome = true := by
  obtain ⟨sign, ip, fp, ep, rfl, hsign, ⟨hipne, hipdig⟩, hiphead, hfp, hep⟩ := h
  rcases hipv : ip with _ | ⟨i0, irest⟩
  · exact absurd hipv hipne
  subst hipv
  have hi0 := hipdig i0 (List.mem_cons_self _ _)
  have hipdigB : ∀ b ∈ i0 :: irest, isDigitB b = true := by
    intro b hb
    have := hipdig b hb
    simp only [isDigitB, Bool.and_eq_true, decide_eq_true_eq]
    omega
  -- the byte after the integer digits is not a digit
  have hboundary : ∀ x, (fp ++ ep).head? = some x → isDigitB x = false := by
    intro x hx
    rcases hfp with rfl | ⟨fd, rfl, hfd⟩
    · rcases hep with rfl | ⟨e, es, ed, he, rfl, hes, hed⟩
      · cases hx
      · simp only [List.nil_append, List.head?_cons] at hx
        have he2 : e = x := by injection hx
        subst he2
        rcases he with rfl | rfl <;> rfl
    · simp only [List.cons_append, List.head?_cons] at hx
      have he2 : (0x2E : Nat) = x := by injection hx
      subst he2
      rfl
  -- the sign stage
  have hs2 : (parseSign (sign ++ (i0 :: irest) ++ fp ++ ep)).2 =
      (i0 :: irest) ++ fp ++ ep := by
    rcases hsign with rfl | rfl
    · have hi0ne : i0 ≠ 0x2D := by omega
      simp [parseSign, hi0ne]
    · simp [parseSign]
  -- the digit run
  have hspan := span_exact (i0 :: irest) (fp ++ ep) hipdigB hboundary
  -- the leading-zero test passes
  have hcond : (decide (i0 = 48) && !irest.isEmpty) = false := by
    by_cases h48 : i0 = 48
    · have hip48 := hiphead (by rw [h48]; rfl)
      have hir : irest = [] := by
        injection hip48 with h1 h2
      rw [hir]
      simp
    · simp [h48]
  -- the fraction stage
  have hfrac : parseFrac (fp ++ ep) =
      some ((match fp with | _ :: fd => fd | [] => []), ep) := by
    rcases hfp with rfl | ⟨fd, rfl, hfdne, hfddig⟩
    · simp only [List.nil_append]
      apply parseFrac_skip
      rcases hep with rfl | ⟨e, es, ed, he, rfl, hes, hed⟩
      · exact Or.inl rfl
      · refine Or.inr ⟨e, es ++ ed, rfl, ?_⟩
        rcases he with rfl | rfl <;> decide
    · have hfddigB : ∀ b ∈ fd, isDigitB b = true := by
        intro b hb
        have := hfddig b hb
        simp only [isDigitB, Bool.and_eq_true, decide_eq_true_eq]
        omega
      have hbound2 : ∀ x, ep.head? = some x → isDigitB x = false := by
        intro x hx
        rcases hep with rfl | ⟨e, es, ed, he, rfl, hes, hed⟩
        · cases hx
        · have he2 : e = x := by
            simp only [List.head?_cons] at hx
            injection hx
          subst he2
          rcases he with rfl | rfl <;> rfl
      have hspan2 := span_exact fd ep hfddigB hbound2
      have hfie3 : ¬ (fd.isEmpty = true) := by
        cases fd with
        | nil => exact absurd rfl hfdne
        | cons a b => simp
      simp only [List.cons_append, parseFrac]
      rw [if_pos trivial, hspan2.1, hspan2.2, if_neg hfie3]
  -- the exponent stage
  obtain ⟨ev, hexp⟩ := parseExpPart_complete ep hep
  -- assemble
  have hassoc : (i0 :: irest) ++ fp ++ ep = (i0 :: irest) ++ (fp ++ ep) := by
    rw [List.append_assoc]
  simp only [parseNum, hs2, hassoc, hspan.1, hspan.2, hcond,
    Bool.false_eq_true, if_false, hfrac, hexp, List.isEmpty_nil, if_true,
    Option.isSome_some]

/-- C5: the number formatter on a binary float fails with
    UnsupportedValueError exactly for NaN and the two infinities, and the
    formatter on a decimal literal (Number / json.Number) fails with
    UnsupportedValueError exactly when the text is not a well-formed JSON
    number. -/
theorem unsupported_number_values :
    (∀ v : FloatVal, encodeFloat v = .error .unsupportedValue ↔
      (v = .nan ∨ v = .inf true ∨ v = .inf false)) ∧
    (∀ s : List Nat, encodeNumberLit s = .error .unsupportedValue ↔
      ¬ JSONNumber s) := by
  constructor
  · intro v
    cases v with
    | nan => simp [encodeFloat]
    | inf b => cases b <;> simp [encodeFloat]
    | finite neg sig exp => simp [encodeFloat]
  · intro s
    constructor
    · intro h hg
      have hsome := parseNum_complete s hg
      rcases hp : parseNum s with _ | p
      · rw [hp] at hsome
        cases hsome
      · simp only [encodeNumberLit, hp] at h
        cases h
    · intro h
      rcases hp : parseNum s with _ | p
      · simp [encodeNumberLit, hp]
      · exact absurd (parseNum_sound s p hp) h

/-- C5 witness: NaN is rejected with UnsupportedValueError, and the
    json.Number text used by TestIssue10281 is not a JSON number. -/
theorem unsupported_number_values_witness :
    encodeFloat .nan = .error .unsupportedValue ∧
    ¬ JSONNumber (asciiBytes "invalid") :=
  ⟨(unsupported_number_values.1 .nan).mpr (Or.inl rfl),
   (unsupported_number_values.2 (asciiBytes "invalid")).mp rfl⟩

/-! ## UTF-8 encoding of scalars and the escaping policy (C6) -/

/-- Unicode scalar value test (below 0x110000, not a surrogate). -/
def isScalarB (c : Nat) : Bool :=
  c < 0x110000 && !(0xD800 ≤ c && c ≤ 0xDFFF)

/-- Standard UTF-8 encoding of a code point (also the WTF-8 bytes of a
    surrogate). -/
def utf8Bytes (c : Nat) : List Nat :=
  if c < 0x80 then [c]
  else if c < 0x800 then [0xC0 + c / 64, 0x80 + c % 64]
  else if c < 0x10000 then
    [0xE0 + c / 4096, 0x80 + c / 64 % 64, 0x80 + c % 64]
  else
    [0xF0 + c / 262144, 0x80 + c / 4096 % 64, 0x80 + c / 64 % 64,
     0x80 + c % 64]

/-- The per-scalar output claimed for the string formatter: two-character
    escapes for quote, backslash, \b \t \n \f \r, uppercase \u escapes for
    the other C0 controls, raw UTF-8 for every other scalar. -/
def escClaim (c : Nat) : List Nat :=
  if c = 0x22 then [0x5C, 0x22]
  else if c = 0x5C then [0x5C, 0x5C]
  else if c = 0x08 then [0x5C, 0x62]
  else if c = 0x09 then [0x5C, 0x74]
  else if c = 0x0A then [0x5C, 0x6E]
  else if c = 0x0C then [0x5C, 0x66]
  else if c = 0x0D then [0x5C, 0x72]
  else if c < 0x20 then escU c
  else utf8Bytes c

/-- Step: an unescaped ASCII byte is copied raw. -/
lemma strBody_raw_ascii (b0 : Nat) (t : List Nat)
    (h1 : 0x20 ≤ b0) (h2 : b0 < 0x80) (h3 : ¬(b0 = 0x22)) (h4 : ¬(b0 = 0x5C)) :
    strBody (b0 :: t) = (strBody t).map (fun r => b0 :: r) := by
  rcases t with _ | ⟨b1, _ | ⟨b2, _ | ⟨b3, t3⟩⟩⟩
  · rw [strBody.eq_2]
    rw [if_neg h3, if_neg h4,
        if_neg (show ¬(b0 = 0x08) by omega), if_neg (show ¬(b0 = 0x09) by omega),
        if_neg (show ¬(b0 = 0x0A) by omega), if_neg (show ¬(b0 = 0x0C) by omega),
        if_neg (show ¬(b0 = 0x0D) by omega), if_neg (show ¬(b0 < 0x20) by omega),
        if_pos h2]
  · rw [strBody.eq_3]
    rw [if_neg h3, if_neg h4,
        if_neg (show ¬(b0 = 0x08) by omega), if_neg (show ¬(b0 = 0x09) by omega),
        if_neg (show ¬(b0 = 0x0A) by omega), if_neg (show ¬(b0 = 0x0C) by omega),
        if_neg (show ¬(b0 = 0x0D) by omega), if_neg (show ¬(b0 < 0x20) by omega),
        if_pos h2]
  · rw [strBody.eq_4]
    rw [if_neg h3, if_neg h4,
        if_neg (show ¬(b0 = 0x08) by omega), if_neg (show ¬(b0 = 0x09) by omega),
        if_neg (show ¬(b0 = 0x0A) by omega), if_neg (show ¬(b0 = 0x0C) by omega),
        if_neg (show ¬(b0 = 0x0D) by omega), if_neg (show ¬(b0 < 0x20) by omega),
        if_pos h2]
  · rw [strBody.eq_5]
    rw [if_neg h3, if_neg h4,
        if_neg (show ¬(b0 = 0x08) by omega), if_neg (show ¬(b0 = 0x09) by omega),
        if_neg (show ¬(b0 = 0x0A) by omega), if_neg (show ¬(b0 = 0x0C) by omega),
        if_neg (show ¬(b0 = 0x0D) by omega), if_neg (show ¬(b0 < 0x20) by omega),
        if_pos h2]

/-- Step: a C0 control without a short escape gets a \u escape. -/
lemma strBody_ctl (b0 : Nat) (t : List Nat)
    (h1 : b0 < 0x20) (h3 : ¬(b0 = 0x08)) (h4 : ¬(b0 = 0x09)) (h5 : ¬(b0 = 0x0A))
    (h6 : ¬(b0 = 0x0C)) (h7 : ¬(b0 = 0x0D)) :
    strBody (b0 :: t) = (strBody t).map (fun r => escU b0 ++ r) := by
  rcases t with _ | ⟨b1, _ | ⟨b2, _ | ⟨b3, t3⟩⟩⟩
  · rw [strBody.eq_2]
    rw [if_neg (show ¬(b0 = 0x22) by omega), if_neg (show ¬(b0 = 0x5C) by omega),
        if_neg h3, if_neg h4, if_neg h5, if_neg h6, if_neg h7, if_pos h1]
  · rw [strBody.eq_3]
    rw [if_neg (show ¬(b0 = 0x22) by omega), if_neg (show ¬(b0 = 0x5C) by omega),
        if_neg h3, if_neg h4, if_neg h5, if_neg h6, if_neg h7, if_pos h1]
  · rw [strBody.eq_4]
    rw [if_neg (show ¬(b0 = 0x22) by omega), if_neg (show ¬(b0 = 0x5C) by omega),
        if_neg h3, if_neg h4, if_neg h5, if_neg h6, if_neg h7, if_pos h1]
  · rw [strBody.eq_5]
    rw [if_neg (show ¬(b0 = 0x22) by omega), if_neg (show ¬(b0 = 0x5C) by omega),
        if_neg h3, if_neg h4, if_neg h5, if_neg h6, if_neg h7, if_pos h1]

/-- Step: a valid two-byte sequence is copied raw. -/
lemma strBody_two (b0 b1 : Nat) (t : List Nat) (h : valid2 b0 b1 = true) :
    strBody (b0 :: b1 :: t) = (strBody t).map (fun r => b0 :: b1 :: r) := by
  have hb : 0xC2 ≤ b0 := by
    simp only [valid2, Bool.and_eq_true, decide_eq_true_eq] at h
    exact h.1.1
  rcases t with _ | ⟨b2, _ | ⟨b3, t3⟩⟩
  · rw [strBody.eq_3]
    rw [if_neg (show ¬(b0 = 0x22) by omega), if_neg (show ¬(b0 = 0x5C) by omega),
        if_neg (show ¬(b0 = 0x08) by omega), if_neg (show ¬(b0 = 0x09) by omega),
        if_neg (show ¬(b0 = 0x0A) by omega), if_neg (show ¬(b0 = 0x0C) by omega),
        if_neg (show ¬(b0 = 0x0D) by omega), if_neg (show ¬(b0 < 0x20) by omega),
        if_neg (show ¬(b0 < 0x80) by omega),
      if_pos h]
  · rw [strBody.eq_4]
    rw [if_neg (show ¬(b0 = 0x22) by omega), if_neg (show ¬(b0 = 0x5C) by omega),
        if_neg (show ¬(b0 = 0x08) by omega), if_neg (show ¬(b0 = 0x09) by omega),
        if_neg (show ¬(b0 = 0x0A) by omega), if_neg (show ¬(b0 = 0x0C) by omega),
        if_neg (show ¬(b0 = 0x0D) by omega), if_neg (show ¬(b0 < 0x20) by omega),
        if_neg (show ¬(b0 < 0x80) by omega),
      if_pos h]
  · rw [strBody.eq_5]
    rw [if_neg (show ¬(b0 = 0x22) by omega), if_neg (show ¬(b0 = 0x5C) by omega),
        if_neg (show ¬(b0 = 0x08) by omega), if_neg (show ¬(b0 = 0x09) by omega),
        if_neg (show ¬(b0 = 0x0A) by omega), if_neg (show ¬(b0 = 0x0C) by omega),
        if_neg (show ¬(b0 = 0x0D) by omega), if_neg (show ¬(b0 < 0x20) by omega),
        if_neg (show ¬(b0 < 0x80) by omega),
      if_pos h]

/-- Step: a valid three-byte sequence is copied raw. -/
lemma strBody_three (b0 b1 b2 : Nat) (t : List Nat)
    (h : valid3 b0 b1 b2 = true) :
    strBody (b0 :: b1 :: b2 :: t) =
      (strBody t).map (fun r => b0 :: b1 :: b2 :: r) := by
  have hb : 0xE0 ≤ b0 ∧ b0 ≤ 0xEF := by
    simp only [valid3, isCont, Bool.and_eq_true, Bool.or_eq_true,
      decide_eq_true_eq] at h
    omega
  have hv2 : ¬ (valid2 b0 b1 = true) := by
    simp only [valid2, isCont, Bool.and_eq_true, decide_eq_true_eq]
    omega
  rcases t with _ | ⟨b3, t3⟩
  · rw [strBody.eq_4]
    rw [if_neg (show ¬(b0 = 0x22) by omega), if_neg (show ¬(b0 = 0x5C) by omega),
        if_neg (show ¬(b0 = 0x08) by omega), if_neg (show ¬(b0 = 0x09) by omega),
        if_neg (show ¬(b0 = 0x0A) by omega), if_neg (show ¬(b0 = 0x0C) by omega),
        if_neg (show ¬(b0 = 0x0D) by omega), if_neg (show ¬(b0 < 0x20) by omega),
        if_neg (show ¬(b0 < 0x80) by omega),
      if_neg hv2, if_pos h]
  · rw [strBody.eq_5]
    rw [if_neg (show ¬(b0 = 0x22) by omega), if_neg (show ¬(b0 = 0x5C) by omega),
        if_neg (show ¬(b0 = 0x08) by omega), if_neg (show ¬(b0 = 0x09) by omega),
        if_neg (show ¬(b0 = 0x0A) by omega), if_neg (show ¬(b0 = 0x0C) by omega),
        if_neg (show ¬(b0 = 0x0D) by omega), if_neg (show ¬(b0 < 0x20) by omega),
        if_neg (show ¬(b0 < 0x80) by omega),
      if_neg hv2, if_pos h]

/-- Step: a valid four-byte sequence is copied raw. -/
lemma strBody_four (b0 b1 b2 b3 : Nat) (t : List Nat)
    (h : valid4 b0 b1 b2 b3 = true) :
    strBody (b0 :: b1 :: b2 :: b3 :: t) =
      (strBody t).map (fun r => b0 :: b1 :: b2 :: b3 :: r) := by
  have hb : 0xF0 ≤ b0 ∧ b0 ≤ 0xF4 := by
    simp only [valid4, isCont, Bool.and_eq_true, Bool.or_eq_true,
      decide_eq_true_eq] at h
    omega
  have hv2 : ¬ (valid2 b0 b1 = true) := by
    simp only [valid2, isCont, Bool.and_eq_true, decide_eq_true_eq]
    omega
  have hv3 : ¬ (valid3 b0 b1 b2 = true) := by
    simp only [valid3, isCont, Bool.and_eq_true, Bool.or_eq_true,
      decide_eq_true_eq]
    omega
  have hsu : ¬ (surr3 b0 b1 b2 = true) := by
    simp only [surr3, isCont, Bool.and_eq_true, decide_eq_true_eq]
    omega
  rw [strBody.eq_5]
  rw [if_neg (show ¬(b0 = 0x22) by omega), if_neg (show ¬(b0 = 0x5C) by omega),
        if_neg (show ¬(b0 = 0x08) by omega), if_neg (show ¬(b0 = 0x09) by omega),
        if_neg (show ¬(b0 = 0x0A) by omega), if_neg (show ¬(b0 = 0x0C) by omega),
        if_neg (show ¬(b0 = 0x0D) by omega), if_neg (show ¬(b0 < 0x20) by omega),
        if_neg (show ¬(b0 < 0x80) by omega),
    if_neg hv2, if_neg hv3, if_neg hsu, if_pos h]

/-- Step: the seven short escapes. -/
lemma strBody_special (b0 e1 : Nat) (t : List Nat)
    (h : (b0 = 0x22 ∧ e1 = 0x22) ∨ (b0 = 0x5C ∧ e1 = 0x5C) ∨
      (b0 = 0x08 ∧ e1 = 0x62) ∨ (b0 = 0x09 ∧ e1 = 0x74) ∨
      (b0 = 0x0A ∧ e1 = 0x6E) ∨ (b0 = 0x0C ∧ e1 = 0x66) ∨
      (b0 = 0x0D ∧ e1 = 0x72)) :
    strBody (b0 :: t) = (strBody t).map (fun r => 0x5C :: e1 :: r) := by
  rcases h with ⟨rfl, rfl⟩ | ⟨rfl, rfl⟩ | ⟨rfl, rfl⟩ | ⟨rfl, rfl⟩ |
    ⟨rfl, rfl⟩ | ⟨rfl, rfl⟩ | ⟨rfl, rfl⟩ <;>
    rcases t with _ | ⟨b1, _ | ⟨b2, _ | ⟨b3, t3⟩⟩⟩ <;> rfl

/-- The claimed escape of a scalar at or above 0x20 other than quote and
    backslash is its raw UTF-8. -/
lemma escClaim_raw (c : Nat) (h1 : 0x20 ≤ c) (h2 : ¬(c = 0x22))
    (h3 : ¬(c = 0x5C)) : escClaim c = utf8Bytes c := by
  simp only [escClaim]
  rw [if_neg h2, if_neg h3, if_neg (show ¬(c = 0x08) by omega),
    if_neg (show ¬(c = 0x09) by omega), if_neg (show ¬(c = 0x0A) by omega),
    if_neg (show ¬(c = 0x0C) by omega), if_neg (show ¬(c = 0x0D) by omega),
    if_neg (show ¬(c < 0x20) by omega)]

/-- One scalar step of the formatter: the UTF-8 bytes of a scalar are
    consumed as a unit and produce exactly the claimed escape. -/
lemma escStep (c : Nat) (rest : List Nat) (h : isScalarB c = true) :
    strBody (utf8Bytes c ++ rest) =
      (strBody rest).map (fun r => escClaim c ++ r) := by
  have hc : c < 0x110000 ∧ ¬(0xD800 ≤ c ∧ c ≤ 0xDFFF) := by
    simp only [isScalarB, Bool.and_eq_true, Bool.not_eq_true',
      Bool.and_eq_false_iff, decide_eq_true_eq, decide_eq_false_iff_not] at h
    rcases h with ⟨h1, h2 | h2⟩
    · exact ⟨h1, fun hcontra => h2 hcontra.1⟩
    · exact ⟨h1, fun hcontra => h2 hcontra.2⟩
  obtain ⟨hup, hsur⟩ := hc
  by_cases h80 : c < 0x80
  · have hbytes : utf8Bytes c = [c] := by
      simp [utf8Bytes, h80]
    rw [hbytes, List.singleton_append]
    by_cases h22 : c = 0x22
    · subst h22
      rw [strBody_special 0x22 0x22 rest (Or.inl ⟨rfl, rfl⟩)]
      rfl
    · by_cases h5C : c = 0x5C
      · subst h5C
        rw [strBody_special 0x5C 0x5C rest (Or.inr (Or.inl ⟨rfl, rfl⟩))]
        rfl
      · by_cases h08 : c = 0x08
        · subst h08
          rw [strBody_special 0x08 0x62 rest
            (Or.inr (Or.inr (Or.inl ⟨rfl, rfl⟩)))]
          rfl
        · by_cases h09 : c = 0x09
          · subst h09
            rw [strBody_special 0x09 0x74 rest
              (Or.inr (Or.inr (Or.inr (Or.inl ⟨rfl, rfl⟩))))]
            rfl
          · by_cases h0A : c = 0x0A
            · subst h0A
              rw [strBody_special 0x0A 0x6E rest
                (Or.inr (Or.inr (Or.inr (Or.inr (Or.inl ⟨rfl, rfl⟩)))))]
              rfl
            · by_cases h0C : c = 0x0C
              · subst h0C
                rw [strBody_special 0x0C 0x66 rest
                  (Or.inr (Or.inr (Or.inr (Or.inr (Or.inr (Or.inl ⟨rfl, rfl⟩))))))]
                rfl
              · by_cases h0D : c = 0x0D
                · subst h0D
                  rw [strBody_special 0x0D 0x72 rest
                    (Or.inr (Or.inr (Or.inr (Or.inr (Or.inr (Or.inr ⟨rfl, rfl⟩))))))]
                  rfl
                · by_cases hctl : c < 0x20
                  · rw [strBody_ctl c rest hctl h08 h09 h0A h0C h0D]
                    have he : escClaim c = escU c := by
                      simp only [escClaim]
                      rw [if_neg h22, if_neg h5C, if_neg h08, if_neg h09,
                        if_neg h0A, if_neg h0C, if_neg h0D, if_pos hctl]
                    rw [he]
                  · rw [strBody_raw_ascii c rest (by omega) h80 h22 h5C]
                    rw [escClaim_raw c (by omega) h22 h5C, hbytes]
                    rfl
  · have h20 : 0x20 ≤ c := by omega
    have h22 : ¬(c = 0x22) := by omega
    have h5C : ¬(c = 0x5C) := by omega
    rw [escClaim_raw c h20 h22 h5C]
    by_cases h800 : c < 0x800
    · have hbytes : utf8Bytes c = [0xC0 + c / 64, 0x80 + c % 64] := by
        simp [utf8Bytes, h80, h800]
      have hv : valid2 (0xC0 + c / 64) (0x80 + c % 64) = true := by
        simp only [valid2, isCont, Bool.and_eq_true, decide_eq_true_eq]
        omega
      rw [hbytes]
      rw [show ([0xC0 + c / 64, 0x80 + c % 64] ++ rest) =
        (0xC0 + c / 64) :: (0x80 + c % 64) :: rest from rfl]
      rw [strBody_two _ _ _ hv]
      rfl
    · by_cases h10000 : c < 0x10000
      · have hbytes : utf8Bytes c =
            [0xE0 + c / 4096, 0x80 + c / 64 % 64, 0x80 + c % 64] := by
          simp [utf8Bytes, h80, h800, h10000]
        have hv : valid3 (0xE0 + c / 4096) (0x80 + c / 64 % 64)
            (0x80 + c % 64) = true := by
          simp only [valid3, isCont, Bool.and_eq_true, Bool.or_eq_true,
            decide_eq_true_eq]
          omega
        rw [hbytes]
        rw [show ([0xE0 + c / 4096, 0x80 + c / 64 % 64, 0x80 + c % 64] ++ rest) =
          (0xE0 + c / 4096) :: (0x80 + c / 64 % 64) :: (0x80 + c % 64) :: rest
          from rfl]
        rw [strBody_three _ _ _ _ hv]
        rfl
      · have hbytes : utf8Bytes c =
            [0xF0 + c / 262144, 0x80 + c / 4096 % 64, 0x80 + c / 64 % 64,
             0x80 + c % 64] := by
          simp [utf8Bytes, h80, h800, h10000]
        have hv : valid4 (0xF0 + c / 262144) (0x80 + c / 4096 % 64)
            (0x80 + c / 64 % 64) (0x80 + c % 64) = true := by
          simp only [valid4, isCont, Bool.and_eq_true, Bool.or_eq_true,
            decide_eq_true_eq]
          omega
        rw [hbytes]
        rw [show ([0xF0 + c / 262144, 0x80 + c / 4096 % 64, 0x80 + c / 64 % 64,
            0x80 + c % 64] ++ rest) =
          (0xF0 + c / 262144) :: (0x80 + c / 4096 % 64) ::
            (0x80 + c / 64 % 64) :: (0x80 + c % 64) :: rest from rfl]
        rw [strBody_four _ _ _ _ _ hv]
        rfl

/-- The formatter on a whole scalar sequence: each scalar produces its
    claimed escape. -/
lemma strBody_scalars (cs : List Nat) (h : ∀ c ∈ cs, isScalarB c = true) :
    strBody ((cs.map utf8Bytes).flatten) = some ((cs.map escClaim).flatten) := by
  induction cs with
  | nil => rfl
  | cons c rest ih =>
    show strBody (utf8Bytes c ++ (rest.map utf8Bytes).flatten) =
      some (escClaim c ++ (rest.map escClaim).flatten)
    rw [escStep c _ (h c (List.mem_cons_self _ _)),
      ih (fun x hx => h x (List.mem_cons_of_mem _ hx))]
    rfl

/-- C6: for every sequence of Unicode scalars, the emitted string literal
    escapes exactly as claimed — quote and backslash by two-character
    escapes, the five controls \b \t \n \f \r by their short escapes,
    every other C0 control by an uppercase four-digit \u escape, and every
    other scalar (including U+2028, U+2029, 0x7F and all non-ASCII
    scalars) as raw UTF-8 bytes, never escaped. -/
theorem string_escaping_policy (cs : List Nat)
    (h : ∀ c ∈ cs, isScalarB c = true) :
    stringEnc ((cs.map utf8Bytes).flatten) =
      some (0x22 :: ((cs.map escClaim).flatten ++ [0x22])) := by
  rw [stringEnc, strBody_scalars cs h]
  rfl

/-- C6 witness: the scalar sequence LINE SEPARATOR U+2028, DEL 0x7F, quote,
    SUB 0x1A, CJK 0x65E5: raw bytes for U+2028, 0x7F and 0x65E5, an escape
    for the quote, and an uppercase \u001A escape. -/
theorem string_escaping_policy_witness :
    stringEnc (([0x2028, 0x7F, 0x22, 0x1A, 0x65E5].map utf8Bytes).flatten) =
      some (0x22 :: ((([0x2028, 0x7F, 0x22, 0x1A, 0x65E5].map escClaim).flatten)
        ++ [0x22])) :=
  string_escaping_policy [0x2028, 0x7F, 0x22, 0x1A, 0x65E5] (by decide)

/-! ## Lone surrogates and the failure behaviour of the formatter (C1) -/

/-- High surrogate code point test. -/
def isHighS (c : Nat) : Bool :=
  0xD800 ≤ c && c ≤ 0xDBFF

/-- Low surrogate code point test. -/
def isLowS (c : Nat) : Bool :=
  0xDC00 ≤ c && c ≤ 0xDFFF

/-- Per-unit output of the formatter over scalars and lone surrogates:
    scalars escape per the policy, surrogates get uppercase \u escapes. -/
def escUnit (c : Nat) : List Nat :=
  if 0xD800 ≤ c ∧ c ≤ 0xDFFF then escU c else escClaim c

/-- A list not starting with 0xED never starts a low-surrogate triple. -/
lemma startsLowSurr_of_ne (b : Nat) (rest : List Nat) (h : ¬(b = 0xED)) :
    startsLowSurr (b :: rest) = false := by
  rcases rest with _ | ⟨x, _ | ⟨y, r⟩⟩ <;> simp [startsLowSurr, h]

/-- The WTF-8 bytes of a unit that is not a low surrogate never start a
    low-surrogate triple. -/
lemma startsLowSurr_false (c : Nat) (R : List Nat) (hup : c < 0x110000)
    (hlow : isLowS c = false) :
    startsLowSurr (utf8Bytes c ++ R) = false := by
  by_cases h80 : c < 0x80
  · rw [show utf8Bytes c = [c] by simp [utf8Bytes, h80], List.singleton_append]
    exact startsLowSurr_of_ne c R (by omega)
  · by_cases h800 : c < 0x800
    · rw [show utf8Bytes c = [0xC0 + c / 64, 0x80 + c % 64] by
        simp [utf8Bytes, h80, h800]]
      exact startsLowSurr_of_ne _ _ (by omega)
    · by_cases h10000 : c < 0x10000
      · rw [show utf8Bytes c =
          [0xE0 + c / 4096, 0x80 + c / 64 % 64, 0x80 + c % 64] by
          simp [utf8Bytes, h80, h800, h10000]]
        have hlow2 : ¬(0xDC00 ≤ c ∧ c ≤ 0xDFFF) := by
          simp only [isLowS, Bool.and_eq_false_iff, decide_eq_false_iff_not]
            at hlow
          omega
        rw [show ([0xE0 + c / 4096, 0x80 + c / 64 % 64, 0x80 + c % 64] ++ R) =
          (0xE0 + c / 4096) :: (0x80 + c / 64 % 64) :: (0x80 + c % 64) :: R
          from rfl]
        simp only [startsLowSurr, isCont, Bool.and_eq_true, decide_eq_true_eq]
        refine Bool.eq_false_iff.mpr ?_
        intro hcontra
        simp only [Bool.and_eq_true, decide_eq_true_eq] at hcontra
        omega
      · rw [show utf8Bytes c =
          [0xF0 + c / 262144, 0x80 + c / 4096 % 64, 0x80 + c / 64 % 64,
           0x80 + c % 64] by simp [utf8Bytes, h80, h800, h10000]]
        exact startsLowSurr_of_ne _ _ (by omega)

/-- Step: a WTF-8 lone-surrogate triple is escaped, unless a high
    surrogate is immediately followed by a low one. -/
lemma strBody_surr (b0 b1 b2 : Nat) (t : List Nat)
    (hs : surr3 b0 b1 b2 = true)
    (hpair : (highSurr3 b0 b1 && startsLowSurr t) = false) :
    strBody (b0 :: b1 :: b2 :: t) =
      (strBody t).map (fun r => escU (rune3 b0 b1 b2) ++ r) := by
  have hb : b0 = 0xED ∧ 0xA0 ≤ b1 ∧ b1 ≤ 0xBF ∧ 0x80 ≤ b2 ∧ b2 ≤ 0xBF := by
    simp only [surr3, isCont, Bool.and_eq_true, decide_eq_true_eq] at hs
    omega
  have hv2 : ¬ (valid2 b0 b1 = true) := by
    simp only [valid2, isCont, Bool.and_eq_true, decide_eq_true_eq]
    omega
  have hv3 : ¬ (valid3 b0 b1 b2 = true) := by
    simp only [valid3, isCont, Bool.and_eq_true, Bool.or_eq_true,
      decide_eq_true_eq]
    omega
  have hpair2 : ¬ ((highSurr3 b0 b1 && startsLowSurr t) = true) := by
    rw [hpair]
    simp
  rcases t with _ | ⟨b3, t3⟩
  · rw [strBody.eq_4]
    rw [if_neg (show ¬(b0 = 0x22) by omega), if_neg (show ¬(b0 = 0x5C) by omega),
      if_neg (show ¬(b0 = 0x08) by omega), if_neg (show ¬(b0 = 0x09) by omega),
      if_neg (show ¬(b0 = 0x0A) by omega), if_neg (show ¬(b0 = 0x0C) by omega),
      if_neg (show ¬(b0 = 0x0D) by omega), if_neg (show ¬(b0 < 0x20) by omega),
      if_neg (show ¬(b0 < 0x80) by omega),
      if_neg hv2, if_neg hv3, if_pos hs, if_neg hpair2]
  · rw [strBody.eq_5]
    rw [if_neg (show ¬(b0 = 0x22) by omega), if_neg (show ¬(b0 = 0x5C) by omega),
      if_neg (show ¬(b0 = 0x08) by omega), if_neg (show ¬(b0 = 0x09) by omega),
      if_neg (show ¬(b0 = 0x0A) by omega), if_neg (show ¬(b0 = 0x0C) by omega),
      if_neg (show ¬(b0 = 0x0D) by omega), if_neg (show ¬(b0 < 0x20) by omega),
      if_neg (show ¬(b0 < 0x80) by omega),
      if_neg hv2, if_neg hv3, if_pos hs, if_neg hpair2]

/-- One unit step for a lone surrogate. -/
lemma escStepSurr (c : Nat) (rest : List Nat)
    (hs : 0xD800 ≤ c ∧ c ≤ 0xDFFF)
    (hnext : isHighS c = true → startsLowSurr rest = false) :
    strBody (utf8Bytes c ++ rest) =
      (strBody rest).map (fun r => escU c ++ r) := by
  have hbytes : utf8Bytes c =
      [0xE0 + c / 4096, 0x80 + c / 64 % 64, 0x80 + c % 64] := by
    have h80 : ¬(c < 0x80) := by omega
    have h800 : ¬(c < 0x800) := by omega
    have h10000 : c < 0x10000 := by omega
    simp [utf8Bytes, h80, h800, h10000]
  have hsurr : surr3 (0xE0 + c / 4096) (0x80 + c / 64 % 64)
      (0x80 + c % 64) = true := by
    simp only [surr3, isCont, Bool.and_eq_true, decide_eq_true_eq]
    omega
  have hpair : (highSurr3 (0xE0 + c / 4096) (0x80 + c / 64 % 64) &&
      startsLowSurr rest) = false := by
    by_cases hhigh : c ≤ 0xDBFF
    · have := hnext (by simp [isHighS]; omega)
      rw [this]
      simp
    · have : highSurr3 (0xE0 + c / 4096) (0x80 + c / 64 % 64) = false := by
        simp only [highSurr3, Bool.and_eq_true, decide_eq_true_eq]
        refine Bool.eq_false_iff.mpr ?_
        intro hcontra
        simp only [Bool.and_eq_true, decide_eq_true_eq] at hcontra
        omega
      rw [this]
      simp
  have hrune : rune3 (0xE0 + c / 4096) (0x80 + c / 64 % 64) (0x80 + c % 64)
      = c := by
    simp only [rune3]
    omega
  rw [hbytes]
  rw [show ([0xE0 + c / 4096, 0x80 + c / 64 % 64, 0x80 + c % 64] ++ rest) =
    (0xE0 + c / 4096) :: (0x80 + c / 64 % 64) :: (0x80 + c % 64) :: rest
    from rfl]
  rw [strBody_surr _ _ _ _ hsurr hpair, hrune]

/-- The formatter on a sequence of scalars and lone surrogates with no
    high-low adjacency. -/
lemma strBody_wtf8 (cs : List Nat) (h : ∀ c ∈ cs, c < 0x110000)
    (hchain : cs.Chain' (fun a b => ¬(isHighS a = true ∧ isLowS b = true))) :
    strBody ((cs.map utf8Bytes).flatten) = some ((cs.map escUnit).flatten) := by
  induction cs with
  | nil => rfl
  | cons c rest ih =>
    have hc := h c (List.mem_cons_self _ _)
    have hrest : ∀ x ∈ rest, x < 0x110000 :=
      fun x hx => h x (List.mem_cons_of_mem _ hx)
    have hchainrest : rest.Chain'
        (fun a b => ¬(isHighS a = true ∧ isLowS b = true)) := hchain.tail
    by_cases hsur : 0xD800 ≤ c ∧ c ≤ 0xDFFF
    · have hnext : isHighS c = true →
          startsLowSurr ((rest.map utf8Bytes).flatten) = false := by
        intro hhigh
        cases rest with
        | nil => rfl
        | cons c2 rest2 =>
          have hpair := List.chain'_cons.mp hchain
          have hlow : isLowS c2 = false := by
            rcases Bool.eq_false_or_eq_true (isLowS c2) with hv | hv
            · exact absurd ⟨hhigh, hv⟩ hpair.1
            · exact hv
          show startsLowSurr (utf8Bytes c2 ++ (rest2.map utf8Bytes).flatten)
            = false
          exact startsLowSurr_false c2 _ (hrest c2 (List.mem_cons_self _ _))
            hlow
      show strBody (utf8Bytes c ++ (rest.map utf8Bytes).flatten) =
        some (escUnit c ++ (rest.map escUnit).flatten)
      rw [escStepSurr c _ hsur hnext, ih hrest hchainrest]
      rw [show escUnit c = escU c by simp [escUnit, hsur]]
      rfl
    · have hscal : isScalarB c = true := by
        simp only [isScalarB, Bool.and_eq_true, Bool.not_eq_true',
          Bool.and_eq_false_iff, decide_eq_true_eq, decide_eq_false_iff_not]
        constructor
        · exact hc
        · by_cases hd : 0xD800 ≤ c
          · exact Or.inr (fun hcontra => hsur ⟨hd, hcontra⟩)
          · exact Or.inl hd
      show strBody (utf8Bytes c ++ (rest.map utf8Bytes).flatten) =
        some (escUnit c ++ (rest.map escUnit).flatten)
      rw [escStep c _ hscal, ih hrest hchainrest]
      rw [show escUnit c = escClaim c by simp [escUnit, hsur]]
      rfl

/-- C1 counterexample: the string formatter fails on the byte 0x80 (as
    TestUnsupportedValues requires), instead of succeeding with the byte
    replaced by U+FFFD (raw bytes EF BF BD) as the claim states; so
    formatting can fail and no U+FFFD substitution happens. -/
theorem string_never_fails_false :
    stringEnc [0x80] = none ∧
    stringEnc [0x80] ≠ some [0x22, 0xEF, 0xBF, 0xBD, 0x22] := by
  exact ⟨by decide, by decide⟩

/-- C1 amended: the string formatter treats text and byte-slice input
    alike as a byte sequence; it succeeds on every sequence of Unicode
    scalars and WTF-8 lone surrogates in which no high surrogate is
    directly followed by a low surrogate, emitting each scalar per the
    escaping policy and each lone surrogate as an uppercase \u escape
    (never U+FFFD); on the remaining ill-formed inputs (the
    TestUnsupportedValues vectors) it fails with UnsupportedValueError. -/
theorem string_coercion_behaviour :
    (∀ cs : List Nat, (∀ c ∈ cs, c < 0x110000) →
      cs.Chain' (fun a b => ¬(isHighS a = true ∧ isLowS b = true)) →
      stringEnc ((cs.map utf8Bytes).flatten) =
        some (0x22 :: ((cs.map escUnit).flatten ++ [0x22]))) ∧
    stringEnc [0x80] = none ∧
    stringEnc [0xCF] = none ∧
    stringEnc [0xED, 0xA0] = none ∧
    stringEnc [0xED, 0xA0, 0x7E] = none ∧
    stringEnc [0xF8, 0x82, 0x83, 0x84] = none ∧
    stringEnc [0xED, 0xA0, 0x80, 0xED, 0xBF, 0xBF] = none ∧
    stringEnc (utf8Bytes 0xD800) =
      some [0x22, 0x5C, 0x75, 0x44, 0x38, 0x30, 0x30, 0x22] := by
  refine ⟨?_, by decide, by decide, by decide, by decide, by decide,
    by decide, by decide⟩
  intro cs h hchain
  rw [stringEnc, strBody_wtf8 cs h hchain]
  rfl

/-- C1 amended witness: the sequence low surrogate U+DFFF then high
    surrogate U+D800 (from encodeStringTests) is accepted and escaped as
    uppercase \uDFFF\uD800. -/
theorem string_coercion_behaviour_witness :
    stringEnc (([0xDFFF, 0xD800].map utf8Bytes).flatten) =
      some (0x22 :: (([0xDFFF, 0xD800].map escUnit).flatten ++ [0x22])) :=
  string_coercion_behaviour.1 [0xDFFF, 0xD800] (by decide)
    (List.chain'_cons.mpr ⟨by decide, List.chain'_singleton _⟩)

/-! ## The decimal value of a parts record (C7) -/

/-- Exact rational value denoted by a decimal: sign, digits, and the power
    of ten shifting the fraction. -/
def ratOfParts (p : DecParts) : ℚ :=
  (if p.neg then -1 else 1) * (natOfDigits (p.intp ++ p.frac) : ℚ) *
    (10 : ℚ) ^ (p.exp - (p.frac.length : Int))

/-- Folding the digits from an accumulator. -/
lemma natOfDigits_go (l : List Nat) : ∀ acc : Nat,
    l.foldl (fun a d => 10 * a + d) acc =
      acc * 10 ^ l.length + natOfDigits l := by
  induction l with
  | nil => intro acc; simp [natOfDigits]
  | cons d t ih =>
    intro acc
    show (t.foldl (fun a d => 10 * a + d) (10 * acc + d)) = _
    rw [ih (10 * acc + d)]
    have h2 : natOfDigits (d :: t) =
        d * 10 ^ t.length + natOfDigits t := by
      show (t.foldl (fun a d => 10 * a + d) (10 * 0 + d)) = _
      rw [ih (10 * 0 + d)]
      ring_nf
    rw [h2]
    simp [List.length_cons]
    ring

/-- Digit-list concatenation multiplies the prefix by a power of ten. -/
lemma natOfDigits_append (a b : List Nat) :
    natOfDigits (a ++ b) = natOfDigits a * 10 ^ b.length + natOfDigits b := by
  show (a ++ b).foldl (fun a d => 10 * a + d) 0 = _
  rw [List.foldl_append, natOfDigits_go b]
  rfl

/-- Leading zeros carry no value. -/
lemma natOfDigits_stripLead (l : List Nat) :
    natOfDigits (stripLead l) = natOfDigits l := by
  induction l with
  | nil => rfl
  | cons d t ih =>
    by_cases hd : d = 0
    · subst hd
      rw [show stripLead (0 :: t) = stripLead t from by
        simp [stripLead, List.dropWhile_cons_of_pos]]
      rw [ih]
      show _ = t.foldl (fun a d => 10 * a + d) (10 * 0 + 0)
      rfl
    · rw [show stripLead (d :: t) = d :: t from by
        simp [stripLead, List.dropWhile_cons_of_neg, hd]]

/-- A run of zeros carries no value. -/
lemma natOfDigits_replicate_zero (k : Nat) :
    natOfDigits (List.replicate k 0) = 0 := by
  induction k with
  | zero => rfl
  | succ n ih =>
    rw [List.replicate_succ]
    show (List.replicate n 0).foldl (fun a d => 10 * a + d) (10 * 0 + 0) = 0
    exact ih

/-- The value factors through the trailing-zero stripping. -/
lemma natOfDigits_stripTrail (l : List Nat) :
    natOfDigits l =
      natOfDigits (stripTrail l) * 10 ^ (l.length - (stripTrail l).length) := by
  conv_lhs => rw [stripTrail_decomp l]
  rw [natOfDigits_append, natOfDigits_replicate_zero, List.length_replicate]
  omega

/-- A digit list with nonzero head has positive value. -/
lemma natOfDigits_pos (l : List Nat) (hne : l ≠ [])
    (hh : l.head? ≠ some 0) : 0 < natOfDigits l := by
  cases l with
  | nil => exact absurd rfl hne
  | cons d t =>
    have hd : d ≠ 0 := by
      intro h
      exact hh (by rw [h]; rfl)
    show 0 < (t.foldl (fun a d => 10 * a + d) (10 * 0 + d))
    rw [natOfDigits_go t (10 * 0 + d)]
    have : 0 < 10 ^ t.length := Nat.pos_pow_of_pos _ (by norm_num)
    have : 0 < (10 * 0 + d) * 10 ^ t.length := by positivity
    omega

/-- A digit list whose last digit is nonzero has value not divisible by
    ten. -/
lemma natOfDigits_not_dvd (l : List Nat) (hne : l ≠ [])
    (hl : l.getLast? ≠ some 0) (hdig : ∀ d ∈ l, d < 10) :
    ¬ (10 ∣ natOfDigits l) := by
  have hdecomp : l = l.dropLast ++ [l.getLast hne] :=
    (List.dropLast_append_getLast hne).symm
  have hlast : l.getLast hne ≠ 0 := by
    intro h
    exact hl (by rw [List.getLast?_eq_getLast _ hne, h])
  have hlt : l.getLast hne < 10 := hdig _ (List.getLast_mem hne)
  intro hdvd
  rw [hdecomp, natOfDigits_append] at hdvd
  simp only [List.length_singleton, pow_one] at hdvd
  have hvl : natOfDigits [l.getLast hne] = l.getLast hne := by
    show List.foldl _ _ _ = _
    simp [natOfDigits]
  rw [hvl] at hdvd
  omega

/-- A no-leading-zero digit list of value zero is empty. -/
lemma natOfDigits_zero_iff (l : List Nat) (hh : l = [] ∨ l.head? ≠ some 0) :
    natOfDigits l = 0 ↔ l = [] := by
  constructor
  · intro h0
    rcases hh with rfl | hh
    · rfl
    · by_contra hne
      have := natOfDigits_pos l hne hh
      omega
  · intro h
    subst h
    rfl

/-- The empty digit list has value zero. -/
lemma natOfDigits_nil : natOfDigits ([] : List Nat) = 0 := rfl

/-- A one-digit list has that digit as its value. -/
lemma natOfDigits_singleton (x : Nat) : natOfDigits [x] = x := by
  simp [natOfDigits]

/-- Stripping trailing zeros does not lengthen a list. -/
lemma stripTrail_length_le (l : List Nat) :
    (stripTrail l).length ≤ l.length := by
  have h := congrArg List.length (stripTrail_decomp l)
  rw [List.length_append] at h
  omega

/-- No-leading-zero digit lists are determined by their values. -/
lemma natOfDigits_inj (l1 : List Nat) : ∀ l2 : List Nat,
    (∀ d ∈ l1, d < 10) → (∀ d ∈ l2, d < 10) →
    (l1 = [] ∨ l1.head? ≠ some 0) → (l2 = [] ∨ l2.head? ≠ some 0) →
    natOfDigits l1 = natOfDigits l2 → l1 = l2 := by
  induction l1 using List.reverseRecOn with
  | nil =>
    intro l2 _ _ _ hh2 hv
    exact ((natOfDigits_zero_iff l2 hh2).mp hv.symm).symm
  | append_singleton l a ih =>
    intro l2 h1 h2 hh1 hh2 hv
    rcases List.eq_nil_or_concat l2 with rfl | ⟨l2t, d2, rfl⟩
    · exact (natOfDigits_zero_iff _ hh1).mp hv
    · simp only [List.concat_eq_append] at h2 hh2 hv ⊢
      simp only [natOfDigits_append, natOfDigits_singleton,
        List.length_singleton, pow_one] at hv
      have ha : a < 10 := h1 a (List.mem_append_right _ (List.mem_singleton_self a))
      have hd2 : d2 < 10 := h2 d2 (List.mem_append_right _ (List.mem_singleton_self d2))
      have had : a = d2 ∧ natOfDigits l = natOfDigits l2t := by omega
      have hpre : l = l2t := by
        refine ih l2t ?_ ?_ ?_ ?_ had.2
        · exact fun d hd => h1 d (List.mem_append_left _ hd)
        · exact fun d hd => h2 d (List.mem_append_left _ hd)
        · cases l with
          | nil => exact Or.inl rfl
          | cons x t =>
            refine Or.inr ?_
            intro hc
            rcases hh1 with hh1 | hh1
            · exact absurd hh1 (by simp)
            · exact hh1 (by simpa using hc)
        · cases l2t with
          | nil => exact Or.inl rfl
          | cons x t =>
            refine Or.inr ?_
            intro hc
            rcases hh2 with hh2 | hh2
            · exact absurd hh2 (by simp)
            · exact hh2 (by simpa using hc)
      rw [hpre, had.1]

/-- Directed form of the power-of-ten uniqueness: with both significands
    positive and coprime to ten, equal values force equal parts. -/
lemma pow10_unique_le (a b : Nat) (x y : Int) (_ : 0 < a) (_ : 0 < b)
    (hda : ¬ (10 ∣ a)) (_ : ¬ (10 ∣ b)) (hxy : x ≤ y)
    (h : (a : ℚ) * 10 ^ x = (b : ℚ) * 10 ^ y) : a = b ∧ x = y := by
  have h10 : (10 : ℚ) ≠ 0 := by norm_num
  have hk : y = x + ((y - x).toNat : Int) := by omega
  have hy10 : (10 : ℚ) ^ y = (10 : ℚ) ^ ((y - x).toNat : Int) * 10 ^ x := by
    have hz := zpow_add₀ h10 x (((y - x).toNat : Int))
    rw [← hk] at hz
    rw [hz]
    ring
  rw [hy10] at h
  have h2 : (a : ℚ) = (b : ℚ) * (10 : ℚ) ^ ((y - x).toNat : Int) := by
    have h3 : (a : ℚ) * 10 ^ x =
        ((b : ℚ) * (10 : ℚ) ^ ((y - x).toNat : Int)) * 10 ^ x := by
      rw [h]; ring
    exact mul_right_cancel₀ (zpow_ne_zero x h10) h3
  rw [zpow_natCast] at h2
  have h4 : a = b * 10 ^ (y - x).toNat := by
    have hc : ((b * 10 ^ (y - x).toNat : Nat) : ℚ) =
        (b : ℚ) * (10 : ℚ) ^ (y - x).toNat := by
      push_cast
      ring
    exact Nat.cast_inj.mp (h2.trans hc.symm)
  have hk0 : (y - x).toNat = 0 := by
    by_contra hne
    have hdvd : 10 ∣ a := by
      rw [h4]
      exact Dvd.dvd.mul_left (dvd_pow_self 10 hne) b
    exact hda hdvd
  constructor
  · rw [h4, hk0, pow_zero, Nat.mul_one]
  · omega

/-- Power-of-ten uniqueness: a positive significand not divisible by ten
    and its exponent are determined by the rational value. -/
lemma pow10_unique (a b : Nat) (x y : Int) (ha : 0 < a) (hb : 0 < b)
    (hda : ¬ (10 ∣ a)) (hdb : ¬ (10 ∣ b))
    (h : (a : ℚ) * 10 ^ x = (b : ℚ) * 10 ^ y) : a = b ∧ x = y := by
  rcases le_total x y with hxy | hxy
  · exact pow10_unique_le a b x y ha hb hda hdb hxy h
  · obtain ⟨h1, h2⟩ := pow10_unique_le b a y x hb ha hdb hda hxy h.symm
    exact ⟨h1.symm, h2.symm⟩

/-- The decimal value factors through the stripped significand and the
    power of ten tracked by the canonicalizer. -/
lemma ratOfParts_factor (p : DecParts) :
    ratOfParts p =
      (if p.neg then -1 else 1) * (natOfDigits (sigOf p) : ℚ) *
        (10 : ℚ) ^ e10Of p := by
  unfold ratOfParts e10Of sigOf
  have hle : (stripTrail (stripLead (p.intp ++ p.frac))).length ≤
      (stripLead (p.intp ++ p.frac)).length :=
    stripTrail_length_le _
  have hval : natOfDigits (p.intp ++ p.frac) =
      natOfDigits (stripTrail (stripLead (p.intp ++ p.frac))) *
        10 ^ ((stripLead (p.intp ++ p.frac)).length -
          (stripTrail (stripLead (p.intp ++ p.frac))).length) := by
    rw [← natOfDigits_stripLead (p.intp ++ p.frac)]
    exact natOfDigits_stripTrail _
  rw [hval]
  push_cast
  rw [zpow_add₀ (by norm_num : (10 : ℚ) ≠ 0)]
  rw [show (((stripLead (p.intp ++ p.frac)).length : Int) -
      ((stripTrail (stripLead (p.intp ++ p.frac))).length : Int)) =
      (((stripLead (p.intp ++ p.frac)).length -
        (stripTrail (stripLead (p.intp ++ p.frac))).length : Nat) : Int) by
    omega]
  rw [zpow_natCast]
  ring

/-- Equal decimal values give identical canonical encodings. -/
lemma canonical_of_value_eq (p q : DecParts)
    (hp : ∀ d ∈ p.intp ++ p.frac, d < 10)
    (hq : ∀ d ∈ q.intp ++ q.frac, d < 10)
    (hv : ratOfParts p = ratOfParts q) :
    canonicalOfParts p = canonicalOfParts q := by
  obtain ⟨hpd, hph, hpl⟩ := sigOf_props p hp
  obtain ⟨hqd, hqh, hql⟩ := sigOf_props q hq
  rw [ratOfParts_factor, ratOfParts_factor] at hv
  have h10 : (10 : ℚ) ≠ 0 := by norm_num
  have hspne : (if p.neg then (-1 : ℚ) else 1) ≠ 0 := by
    cases p.neg <;> norm_num
  have hsqne : (if q.neg then (-1 : ℚ) else 1) ≠ 0 := by
    cases q.neg <;> norm_num
  by_cases hsp0 : sigOf p = []
  · have hsq0 : sigOf q = [] := by
      by_contra hqne
      have hqpos : 0 < natOfDigits (sigOf q) := natOfDigits_pos _ hqne hqh
      have hnne : ((natOfDigits (sigOf q) : Nat) : ℚ) ≠ 0 := by
        exact_mod_cast (by omega : natOfDigits (sigOf q) ≠ 0)
      rw [hsp0, natOfDigits_nil] at hv
      simp only [Nat.cast_zero, mul_zero, zero_mul] at hv
      exact (mul_ne_zero (mul_ne_zero hsqne hnne) (zpow_ne_zero _ h10)) hv.symm
    unfold canonicalOfParts
    rw [hsp0, hsq0]
    rfl
  · have hsq0 : sigOf q ≠ [] := by
      intro hq0
      have hppos : 0 < natOfDigits (sigOf p) := natOfDigits_pos _ hsp0 hph
      have hnne : ((natOfDigits (sigOf p) : Nat) : ℚ) ≠ 0 := by
        exact_mod_cast (by omega : natOfDigits (sigOf p) ≠ 0)
      rw [hq0, natOfDigits_nil] at hv
      simp only [Nat.cast_zero, mul_zero, zero_mul] at hv
      exact (mul_ne_zero (mul_ne_zero hspne hnne) (zpow_ne_zero _ h10)) hv
    have hppos : 0 < natOfDigits (sigOf p) := natOfDigits_pos _ hsp0 hph
    have hqpos : 0 < natOfDigits (sigOf q) := natOfDigits_pos _ hsq0 hqh
    have hpq : ((natOfDigits (sigOf p) : Nat) : ℚ) > 0 := by exact_mod_cast hppos
    have hqq : ((natOfDigits (sigOf q) : Nat) : ℚ) > 0 := by exact_mod_cast hqpos
    have hzpp : (0 : ℚ) < (10 : ℚ) ^ e10Of p := by positivity
    have hzqp : (0 : ℚ) < (10 : ℚ) ^ e10Of q := by positivity
    have hneg : p.neg = q.neg := by
      by_contra hne
      have hx : (p.neg = false ∧ q.neg = true) ∨
          (p.neg = true ∧ q.neg = false) := by
        cases hb1 : p.neg <;> cases hb2 : q.neg
        · exact absurd (hb1.trans hb2.symm) hne
        · exact Or.inl ⟨rfl, rfl⟩
        · exact Or.inr ⟨rfl, rfl⟩
        · exact absurd (hb1.trans hb2.symm) hne
      rcases hx with ⟨h1, h2⟩ | ⟨h1, h2⟩ <;> rw [h1, h2] at hv <;>
        simp at hv <;> nlinarith
    rw [hneg] at hv
    rw [mul_assoc, mul_assoc] at hv
    have hcore := mul_left_cancel₀ hsqne hv
    obtain ⟨hneq, heeq⟩ :=
      pow10_unique _ _ _ _ hppos hqpos
        (natOfDigits_not_dvd _ hsp0 hpl hpd)
        (natOfDigits_not_dvd _ hsq0 hql hqd) hcore
    have hsig : sigOf p = sigOf q :=
      natOfDigits_inj _ _ hpd hqd (Or.inr hph) (Or.inr hqh) hneq
    unfold canonicalOfParts
    rw [hneg, hsig, heeq]

/-- Fraction digits returned by the parser are ASCII digits. -/
lemma parseFrac_digits (r : List Nat) (fds r3 : List Nat)
    (h : parseFrac r = some (fds, r3)) : ∀ b ∈ fds, isDigitB b = true := by
  cases r with
  | nil =>
    simp only [parseFrac] at h
    cases h
    intro b hb
    cases hb
  | cons b0 r2 =>
    simp only [parseFrac] at h
    by_cases hp : b0 = 0x2E
    · rw [if_pos hp] at h
      by_cases he : (r2.takeWhile isDigitB).isEmpty = true
      · rw [if_pos he] at h
        cases h
      · rw [if_neg he] at h
        cases h
        intro b hb
        exact List.mem_takeWhile_imp hb
    · rw [if_neg hp] at h
      cases h
      intro b hb
      cases hb

/-- Digit values produced by the parser are below ten. -/
lemma parseNum_digit_bound (s : List Nat) (p : DecParts)
    (h : parseNum s = some p) : ∀ d ∈ p.intp ++ p.frac, d < 10 := by
  simp only [parseNum] at h
  cases hids : (parseSign s).2.takeWhile isDigitB with
  | nil =>
    simp only [hids] at h
    exact Option.noConfusion h
  | cons d0 drest =>
    simp only [hids] at h
    by_cases hz : (d0 = 48 && !drest.isEmpty) = true
    · rw [if_pos hz] at h
      cases h
    · rw [if_neg hz] at h
      rcases hfr : parseFrac ((parseSign s).2.dropWhile isDigitB)
        with _ | ⟨fds, r3⟩
      · simp only [hfr] at h
        exact Option.noConfusion h
      · simp only [hfr] at h
        rcases hep : parseExpPart r3 with _ | ⟨ev, r6⟩
        · simp only [hep] at h
          exact Option.noConfusion h
        · simp only [hep] at h
          by_cases hr6 : r6.isEmpty = true
          · rw [if_pos hr6] at h
            cases h
            intro d hd
            rcases List.mem_append.mp hd with hd | hd
            · rcases List.mem_map.mp hd with ⟨b, hb, rfl⟩
              have hbd : isDigitB b = true := by
                rw [← hids] at hb
                exact List.mem_takeWhile_imp hb
              simp only [isDigitB, Bool.and_eq_true, decide_eq_true_eq] at hbd
              omega
            · rcases List.mem_map.mp hd with ⟨b, hb, rfl⟩
              have hbd : isDigitB b = true := parseFrac_digits _ _ _ hfr b hb
              simp only [isDigitB, Bool.and_eq_true, decide_eq_true_eq] at hbd
              omega
          · rw [if_neg hr6] at h
            cases h

/-- C7: numeric inputs denoting the same mathematical value produce
    byte-identical canonical output: any two decimal-parts records of equal
    rational value canonicalize identically, any two well-formed decimal
    literals (Number / json.Number) of equal value encode identically, and
    a finite binary float encodes identically to any decimal literal of its
    value, regardless of insignificant zeros or exponent placement in the
    source lexemes. -/
theorem number_value_determines_output :
    (∀ p q : DecParts, (∀ d ∈ p.intp ++ p.frac, d < 10) →
        (∀ d ∈ q.intp ++ q.frac, d < 10) →
        ratOfParts p = ratOfParts q →
        canonicalOfParts p = canonicalOfParts q) ∧
    (∀ s1 s2 p1 p2, parseNum s1 = some p1 → parseNum s2 = some p2 →
        ratOfParts p1 = ratOfParts p2 →
        encodeNumberLit s1 = encodeNumberLit s2) ∧
    (∀ neg sig exp s p, (∀ d ∈ sig, d < 10) →
        parseNum s = some p →
        ratOfParts ⟨neg, sig, [], exp⟩ = ratOfParts p →
        encodeFloat (FloatVal.finite neg sig exp) = encodeNumberLit s) := by
  refine ⟨canonical_of_value_eq, ?_, ?_⟩
  · intro s1 s2 p1 p2 h1 h2 hv
    unfold encodeNumberLit
    rw [h1, h2]
    exact congrArg Except.ok
      (canonical_of_value_eq p1 p2 (parseNum_digit_bound _ _ h1)
        (parseNum_digit_bound _ _ h2) hv)
  · intro neg sig exp s p hd hp hv
    unfold encodeNumberLit encodeFloat
    rw [hp]
    refine congrArg Except.ok ?_
    refine canonical_of_value_eq _ _ ?_ (parseNum_digit_bound _ _ hp) hv
    intro d hdm
    simp only [List.append_nil] at hdm
    exact hd d hdm

/-- The equal-value clauses of the uniqueness theorem at the TestFloat
    vectors: 0.025, 250e-4 and the float 2.5e-2 all yield one byte
    sequence. -/
theorem number_value_determines_output_witness :
    encodeNumberLit (asciiBytes "0.025") =
      encodeNumberLit (asciiBytes "250e-4") ∧
    encodeFloat (FloatVal.finite false [2, 5] (-3)) =
      encodeNumberLit (asciiBytes "0.250e-1") := by
  constructor
  · refine number_value_determines_output.2.1 _ _
      ⟨false, [0], [0, 2, 5], 0⟩ ⟨false, [2, 5, 0], [], -4⟩ rfl rfl ?_
    norm_num [ratOfParts, natOfDigits, List.foldl, zpow_neg]
  · refine number_value_determines_output.2.2 false [2, 5] (-3) _
      ⟨false, [0], [2, 5, 0], -1⟩ (by decide) rfl ?_
    norm_num [ratOfParts, natOfDigits, List.foldl, zpow_neg]

end CanonJson
